import Mathlib

/-!
Verification of the tabular data modifier pipeline (Sort, Range, Group,
Invert, Chain, serialization) of the repository's data layer.

The modifier classes are shallowly embedded from their TypeScript sources:
`SortModifier`, `RangeModifier`, `GroupModifier`, `InvertModifier` and
`ChainModifier`.  JavaScript numbers are modelled as integers (`Int`);
fractional values, `NaN` payloads beyond the `Option` encoding below, and
floating-point rounding are outside the scope of the claims checked here.
The `DataTable` collaborator itself is not part of the sources; its
operations are modelled from the specification (see the individual
doc comments).
-/

/-- A table cell: boolean, number, string, undefined, or a nested table
(a nested table is its raw column collection: ordered association list
from column name to cell sequence). -/
inductive Cell where
  | bool (b : Bool)
  | num (n : Int)
  | str (s : String)
  | undef
  | table (cols : List (String × List Cell))

/-- Modelled from the spec: a table is a mapping from column name to an
ordered sequence of cells; insertion order of columns is significant. -/
abbrev DataTable : Type := List (String × List Cell)

/- Structural (decidable) equality for cells, by mutual recursion through
the nested column collections. -/

mutual

def cellBeq : Cell → Cell → Bool
  | .bool a, .bool b => a == b
  | .num a, .num b => a == b
  | .str a, .str b => a == b
  | Cell.undef, Cell.undef => true
  | .table a, .table b => colsBeq a b
  | _, _ => false

def colsBeq : List (String × List Cell) → List (String × List Cell) → Bool
  | [], [] => true
  | (n₁, c₁) :: r₁, (n₂, c₂) :: r₂ => n₁ == n₂ && cellsBeq c₁ c₂ && colsBeq r₁ r₂
  | _, _ => false

def cellsBeq : List Cell → List Cell → Bool
  | [], [] => true
  | a :: as, b :: bs => cellBeq a b && cellsBeq as bs
  | _, _ => false

end

mutual

theorem cellBeq_iff : ∀ a b : Cell, cellBeq a b = true ↔ a = b
  | .bool _, .bool _ => by simp [cellBeq]
  | .num _, .num _ => by simp [cellBeq]
  | .str _, .str _ => by simp [cellBeq]
  | Cell.undef, Cell.undef => by simp [cellBeq]
  | .table a, .table b => by simp [cellBeq, colsBeq_iff a b]
  | .bool _, .num _ => by simp [cellBeq]
  | .bool _, .str _ => by simp [cellBeq]
  | .bool _, Cell.undef => by simp [cellBeq]
  | .bool _, .table _ => by simp [cellBeq]
  | .num _, .bool _ => by simp [cellBeq]
  | .num _, .str _ => by simp [cellBeq]
  | .num _, Cell.undef => by simp [cellBeq]
  | .num _, .table _ => by simp [cellBeq]
  | .str _, .bool _ => by simp [cellBeq]
  | .str _, .num _ => by simp [cellBeq]
  | .str _, Cell.undef => by simp [cellBeq]
  | .str _, .table _ => by simp [cellBeq]
  | Cell.undef, .bool _ => by simp [cellBeq]
  | Cell.undef, .num _ => by simp [cellBeq]
  | Cell.undef, .str _ => by simp [cellBeq]
  | Cell.undef, .table _ => by simp [cellBeq]
  | .table _, .bool _ => by simp [cellBeq]
  | .table _, .num _ => by simp [cellBeq]
  | .table _, .str _ => by simp [cellBeq]
  | .table _, Cell.undef => by simp [cellBeq]

theorem colsBeq_iff : ∀ a b : List (String × List Cell), colsBeq a b = true ↔ a = b
  | [], [] => by simp [colsBeq]
  | (n₁, c₁) :: r₁, (n₂, c₂) :: r₂ => by
      simp [colsBeq, cellsBeq_iff c₁ c₂, colsBeq_iff r₁ r₂, and_assoc]
  | [], _ :: _ => by simp [colsBeq]
  | _ :: _, [] => by simp [colsBeq]

theorem cellsBeq_iff : ∀ a b : List Cell, cellsBeq a b = true ↔ a = b
  | [], [] => by simp [cellsBeq]
  | a :: as, b :: bs => by simp [cellsBeq, cellBeq_iff a b, cellsBeq_iff as bs]
  | [], _ :: _ => by simp [cellsBeq]
  | _ :: _, [] => by simp [cellsBeq]

end

instance : DecidableEq Cell := fun a b => decidable_of_iff _ (cellBeq_iff a b)

/-! ## JavaScript value semantics

The comparison operators `<`, `<=`, `>=` of the source act on cells with
JavaScript coercion semantics: two strings compare lexicographically,
otherwise both operands are converted to numbers (`NaN` is modelled as
`none`, and any comparison involving `NaN` is false). -/

/-- Lexicographic strict order on character lists (JS string `<`). -/
def charListLt : List Char → List Char → Bool
  | [], [] => false
  | [], _ :: _ => true
  | _ :: _, [] => false
  | a :: as, b :: bs => a < b || (a == b && charListLt as bs)

def jsDigit (c : Char) : Bool := '0' ≤ c && c ≤ '9'

def jsDigitsToNat : List Char → Option Nat
  | [] => none
  | cs =>
    if cs.all jsDigit then
      some (cs.foldl (fun acc c => acc * 10 + (c.toNat - '0'.toNat)) 0)
    else
      none

def jsSpace (c : Char) : Bool := c == ' ' || c == '\t' || c == '\n' || c == '\r'

/-- JS `ToNumber` on a string, restricted to integer literals: surrounding
whitespace is trimmed, the empty string is `0`, an optional sign is
followed by decimal digits, and anything else is `NaN` (`none`). -/
def jsStringToNumber (s : String) : Option Int :=
  let cs := ((s.data.dropWhile jsSpace).reverse.dropWhile jsSpace).reverse
  match cs with
  | [] => some 0
  | '-' :: rest => (jsDigitsToNat rest).map (fun n => -(n : Int))
  | '+' :: rest => (jsDigitsToNat rest).map (fun n => (n : Int))
  | _ => (jsDigitsToNat cs).map (fun n => (n : Int))

/-- JS `ToNumber` on a cell; `none` is `NaN`. A nested table converts via
its object string form, which is not numeric. -/
def jsToNumber : Cell → Option Int
  | .bool b => some (if b then 1 else 0)
  | .num n => some n
  | .str s => jsStringToNumber s
  | Cell.undef => none
  | .table _ => none

/-- Numeric `<` where `none` is `NaN` (any comparison with `NaN` fails). -/
def optLt : Option Int → Option Int → Bool
  | some x, some y => x < y
  | _, _ => false

/-- Numeric `<=` where `none` is `NaN`. -/
def optLe : Option Int → Option Int → Bool
  | some x, some y => x ≤ y
  | _, _ => false

/-- JS `a < b` on cells. -/
def jsLt (a b : Cell) : Bool :=
  match a, b with
  | .str s₁, .str s₂ => charListLt s₁.data s₂.data
  | _, _ => optLt (jsToNumber a) (jsToNumber b)

/-- JS `a <= b` on cells (`¬ (b < a)` unless a `NaN` is involved). -/
def jsLe (a b : Cell) : Bool :=
  match a, b with
  | .str s₁, .str s₂ => !charListLt s₂.data s₁.data
  | _, _ => optLe (jsToNumber a) (jsToNumber b)

/-- JS truthiness of a cell. -/
def jsTruthy : Cell → Bool
  | .bool b => b
  | .num n => n != 0
  | .str s => s != ""
  | Cell.undef => false
  | .table _ => true

/-- JS `typeof` result values relevant to cells. -/
inductive JSType where
  | boolean
  | number
  | string
  | undefinedType
  | object
  deriving DecidableEq

def jsTypeof : Cell → JSType
  | .bool _ => .boolean
  | .num _ => .number
  | .str _ => .string
  | Cell.undef => JSType.undefinedType
  | .table _ => .object

/-! ## DataTable operations

The `DataTable` class itself is outside the given sources; every operation
below is modelled from the spec's table contract (read all columns,
read/replace rows, delete/set columns, read column names) with columns
kept in insertion order and all columns of equal length between calls. -/

namespace DataTable

/-- Modelled from the spec: the table's column names, in order. -/
def getColumnNames (t : DataTable) : List String := t.map Prod.fst

/-- Modelled from the spec: the cell sequence of the named column (the
first column of that name, when looked up by name). -/
def getColumn : DataTable → String → Option (List Cell)
  | [], _ => none
  | c :: t, name => if c.1 = name then some c.2 else getColumn t name

/-- Modelled from the spec: whether the named column exists. -/
def hasColumn : DataTable → String → Bool
  | [], _ => false
  | c :: t, name => c.1 == name || hasColumn t name

/-- Modelled from the spec: the number of rows (the longest column). -/
def getRowCount (t : DataTable) : Nat :=
  t.foldr (fun c m => max c.2.length m) 0

/-- Modelled from the spec: row `i` as the cross-section of all columns at
index `i`, one cell per column in column order (`undefined` beyond a
column's end). -/
def getRow (t : DataTable) (i : Nat) : List Cell :=
  t.map (fun c => c.2.getD i Cell.undef)

/-- Modelled from the spec: row `i` keyed by column name. -/
def getRowObject (t : DataTable) (i : Nat) : List (String × Cell) :=
  t.map (fun c => (c.1, c.2.getD i Cell.undef))

/-- Modelled from the spec: delete the named columns, keeping the rest. -/
def deleteColumnsNamed (t : DataTable) (names : List String) : DataTable :=
  t.filter (fun c => !(names.contains c.1))

/-- Modelled from the spec: replace or append a single column. -/
def setColumn (t : DataTable) (name : String) (col : List Cell) : DataTable :=
  if hasColumn t name then
    t.map (fun c => if c.1 = name then (c.1, col) else c)
  else
    t ++ [(name, col)]

/-- Modelled from the spec: set several columns, in collection order. -/
def setColumns (t : DataTable) (cols : List (String × List Cell)) : DataTable :=
  cols.foldl (fun acc c => setColumn acc c.1 c.2) t

/-- A cell sequence padded with `undefined` up to index `i`, then updated
at `i`. -/
def setPad (col : List Cell) (i : Nat) (v : Cell) : List Cell :=
  (col ++ List.replicate (i + 1 - col.length) Cell.undef).set i v

/-- Modelled from the spec: write one cell, creating the column at the end
of the table when it does not exist yet. -/
def setCell (t : DataTable) (rowIndex : Nat) (name : String) (v : Cell) : DataTable :=
  if hasColumn t name then
    t.map (fun c => if c.1 = name then (c.1, setPad c.2 rowIndex v) else c)
  else
    t ++ [(name, setPad [] rowIndex v)]

/-- Modelled from the spec: `deleteRows()` followed by `setRows(rows)` —
the table's rows are replaced wholesale, cells assigned to columns by
position. -/
def replaceRows (t : DataTable) (rows : List (List Cell)) : DataTable :=
  t.mapIdx (fun k c => (c.1, rows.map (fun r => r.getD k Cell.undef)))

/-- Modelled from the spec: `new DataTable()` followed by
`setRows([rowObject])` — one column per key of the row object, in key
order, each holding that single cell. -/
def ofRowObject (ro : List (String × Cell)) : DataTable :=
  ro.map (fun p => (p.1, [p.2]))

/-- Modelled from the spec: `setRows([row])` appending one row array at
the end, cells assigned to columns by position. -/
def appendRowArray (t : DataTable) (row : List Cell) : DataTable :=
  t.mapIdx (fun k c => (c.1, c.2 ++ [row.getD k Cell.undef]))

/-- All columns have length `n` (the spec's table invariant). -/
def regular (t : DataTable) (n : Nat) : Prop :=
  ∀ c ∈ t, c.2.length = n

/-- The table's rows, in order. -/
def tableRows (t : DataTable) : List (List Cell) :=
  (List.range (getRowCount t)).map (getRow t)

end DataTable

/-! ## A stable sort

`Array.prototype.sort` with a comparator is stable (ES2019): elements that
compare equal keep their original relative order.  The source sorts row
references `{index, row}`; we model the stable sort as an insertion sort
whose order predicate breaks comparator ties by the original index, which
characterises the stable result uniquely for consistent comparators. -/

def ordInsert {α : Type _} (le : α → α → Bool) (x : α) : List α → List α
  | [] => [x]
  | y :: ys => if le x y then x :: y :: ys else y :: ordInsert le x ys

def insSort {α : Type _} (le : α → α → Bool) : List α → List α
  | [] => []
  | x :: xs => ordInsert le x (insSort le xs)

theorem ordInsert_perm {α : Type _} (le : α → α → Bool) (x : α) (l : List α) :
    List.Perm (ordInsert le x l) (x :: l) := by
  induction l with
  | nil => simp [ordInsert]
  | cons y ys ih =>
    simp only [ordInsert]
    by_cases h : le x y
    · simp [h]
    · simp only [h, if_neg]
      exact ((ih.cons y).trans (List.Perm.swap x y ys))

theorem insSort_perm {α : Type _} (le : α → α → Bool) (l : List α) :
    List.Perm (insSort le l) l := by
  induction l with
  | nil => simp [insSort]
  | cons x xs ih =>
    exact (ordInsert_perm le x (insSort le xs)).trans (ih.cons x)

theorem mem_ordInsert {α : Type _} (le : α → α → Bool) (x a : α) (l : List α) :
    a ∈ ordInsert le x l ↔ a = x ∨ a ∈ l := by
  rw [(ordInsert_perm le x l).mem_iff]
  simp

theorem mem_insSort {α : Type _} (le : α → α → Bool) (a : α) (l : List α) :
    a ∈ insSort le l ↔ a ∈ l :=
  (insSort_perm le l).mem_iff

theorem pairwise_ordInsert {α : Type _} (le : α → α → Bool) (x : α) (l : List α)
    (hl : l.Pairwise (fun a b => le a b = true))
    (hx : ∀ y ∈ l, le x y = true ∨ le y x = true)
    (htr : ∀ y ∈ l, ∀ z ∈ l, le x y = true → le y z = true → le x z = true) :
    (ordInsert le x l).Pairwise (fun a b => le a b = true) := by
  induction l with
  | nil => simp [ordInsert]
  | cons y ys ih =>
    rw [List.pairwise_cons] at hl
    simp only [ordInsert]
    by_cases h : le x y
    · simp only [h, if_pos]
      refine List.Pairwise.cons ?_ (List.Pairwise.cons hl.1 hl.2)
      intro z hz
      rcases List.mem_cons.mp hz with hz | hz
      · subst hz; exact h
      · exact htr y (by simp) z (by simp [hz]) h (hl.1 z hz)
    · simp only [h, if_neg]
      refine List.Pairwise.cons ?_ ?_
      · intro z hz
        rw [mem_ordInsert] at hz
        rcases hz with hz | hz
        · subst hz
          rcases hx y (by simp) with hxy | hyx
          · exact absurd hxy h
          · exact hyx
        · exact hl.1 z hz
      · exact ih hl.2 (fun z hz => hx z (by simp [hz]))
          (fun z hz w hw => htr z (by simp [hz]) w (by simp [hw]))

theorem pairwise_insSort {α : Type _} (le : α → α → Bool) (l : List α)
    (htot : ∀ a ∈ l, ∀ b ∈ l, le a b = true ∨ le b a = true)
    (htr : ∀ a ∈ l, ∀ b ∈ l, ∀ c ∈ l,
      le a b = true → le b c = true → le a c = true) :
    (insSort le l).Pairwise (fun a b => le a b = true) := by
  induction l with
  | nil => simp [insSort]
  | cons x xs ih =>
    simp only [insSort]
    refine pairwise_ordInsert le x (insSort le xs) ?_ ?_ ?_
    · exact ih (fun a ha b hb => htot a (by simp [ha]) b (by simp [hb]))
        (fun a ha b hb c hc => htr a (by simp [ha]) b (by simp [hb]) c (by simp [hc]))
    · intro y hy
      rw [mem_insSort] at hy
      exact htot x (by simp) y (by simp [hy])
    · intro y hy z hz
      rw [mem_insSort] at hy
      rw [mem_insSort] at hz
      exact htr x (by simp) y (by simp [hy]) z (by simp [hz])

/-! ## SortModifier

Embedded from `SortModifier` (`src/unnamed/part_000`): comparators
`ascending`/`descending` coerce falsy cells with `(a || 0)`, `modify`
pairs rows with their index, sorts them when `orderByColumn` exists among
the column names, and then either physically reorders the rows or writes
the post-sort rank into `orderInColumn`. -/

inductive Direction where
  | asc
  | desc
  deriving DecidableEq

structure SortOptions where
  direction : Direction := .desc
  orderByColumn : String := "y"
  orderInColumn : Option String := none
  deriving DecidableEq

namespace SortModifier

def defaultOptions : SortOptions := {}

/-- JS `(a || 0)`: a falsy operand is replaced by the number `0`. -/
def jsOrZero (a : Cell) : Cell := if jsTruthy a then a else Cell.num 0

def ascending (a b : Cell) : Int :=
  if jsLt (jsOrZero a) (jsOrZero b) then -1
  else if jsLt (jsOrZero b) (jsOrZero a) then 1
  else 0

def descending (a b : Cell) : Int :=
  if jsLt (jsOrZero b) (jsOrZero a) then -1
  else if jsLt (jsOrZero a) (jsOrZero b) then 1
  else 0

def compareOf : Direction → Cell → Cell → Int
  | .asc => ascending
  | .desc => descending

/-- Order on row references `(index, row)` used for the stable sort: the
source comparator on the order-by cell, ties broken by original index
(the stability guarantee of `Array.prototype.sort`). -/
def rowRefLe (cmp : Cell → Cell → Int) (ci : Nat) (a b : Nat × List Cell) : Bool :=
  cmp (a.2.getD ci Cell.undef) (b.2.getD ci Cell.undef) < 0 ||
    (cmp (a.2.getD ci Cell.undef) (b.2.getD ci Cell.undef) == 0 && a.1 ≤ b.1)

/-- `SortModifier.modify`.  The branch choice `if (orderInColumn)` is a JS
truthiness test: an absent option and the falsy empty string `""` both
take the physical-reorder branch, only a non-empty column name takes the
rank-writing branch. -/
def modify (o : SortOptions) (t : DataTable) : DataTable :=
  let cmp := compareOf o.direction
  let columnNames := DataTable.getColumnNames t
  let rowReferences := (DataTable.tableRows t).enum
  let refs :=
    match columnNames.findIdx? (fun n => n == o.orderByColumn) with
    | some ci => insSort (rowRefLe cmp ci) rowReferences
    | none => rowReferences
  match o.orderInColumn with
  | some c =>
    if c = "" then DataTable.replaceRows t (refs.map Prod.snd)
    else refs.enum.foldl (fun acc p => DataTable.setCell acc p.2.1 c (Cell.num p.1)) t
  | none => DataTable.replaceRows t (refs.map Prod.snd)

/-- The `execute` / `afterExecute` events are emitted unconditionally
around the body of `modify`. -/
def modifyEvents : List String := ["execute", "afterExecute"]

end SortModifier

example :
    SortModifier.modify { direction := .asc } [("y", [Cell.num 3, Cell.num 1, Cell.num 2])] =
      [("y", [Cell.num 1, Cell.num 2, Cell.num 3])] := by decide

example :
    SortModifier.modify {} [("y", [Cell.num 3, Cell.num 1, Cell.num 2])] =
      [("y", [Cell.num 3, Cell.num 2, Cell.num 1])] := by decide

/-! ## Small helper lemmas about padded cell sequences -/

theorem map_range_getD {α : Type _} (l : List α) (d : α) (n : Nat) (h : l.length = n) :
    (List.range n).map (fun i => l.getD i d) = l := by
  subst h
  apply List.ext_getElem
  · simp
  · intro i h₁ h₂
    simp [List.getD_eq_getElem?_getD, List.getElem?_eq_getElem h₂]

theorem getD_append_replicate_undef (col : List Cell) (m j : Nat) :
    (col ++ List.replicate m Cell.undef).getD j Cell.undef = col.getD j Cell.undef := by
  by_cases h : j < col.length
  · simp [List.getD_eq_getElem?_getD, List.getElem?_append_left h]
  · push_neg at h
    simp only [List.getD_eq_getElem?_getD]
    rw [List.getElem?_eq_none h]
    by_cases h₂ : j < col.length + m
    · rw [List.getElem?_append_right h, List.getElem?_replicate]
      simp only [Option.getD_none]
      split <;> simp
    · push_neg at h₂
      rw [List.getElem?_eq_none (by simpa using h₂)]

theorem setPad_length (col : List Cell) (i : Nat) (v : Cell) :
    (DataTable.setPad col i v).length = max col.length (i + 1) := by
  simp [DataTable.setPad]
  omega

theorem setPad_getD_ne (col : List Cell) (i : Nat) (v : Cell) (j : Nat) (h : j ≠ i) :
    (DataTable.setPad col i v).getD j Cell.undef = col.getD j Cell.undef := by
  unfold DataTable.setPad
  rw [List.getD_eq_getElem?_getD, List.getElem?_set_ne (fun hh => h hh.symm),
    ← List.getD_eq_getElem?_getD]
  exact getD_append_replicate_undef col _ j

theorem setPad_getD_eq (col : List Cell) (i : Nat) (v : Cell) :
    (DataTable.setPad col i v).getD i Cell.undef = v := by
  unfold DataTable.setPad
  have hlen : i < (col ++ List.replicate (i + 1 - col.length) Cell.undef).length := by
    simp
    omega
  rw [List.getD_eq_getElem?_getD, List.getElem?_set_self (by simpa using hlen)]
  simp

/-- C10: the sort comparators map every falsy cell (undefined, `false`,
`0`, the empty string) to `0` before comparing, so two falsy cells compare
as equal in both directions, and a column holding `[false, 0, '']` is left
in its original order by a sort in either direction. -/
theorem sort_comparator_falsy :
    (∀ a b : Cell, jsTruthy a = false → jsTruthy b = false →
      SortModifier.ascending a b = 0 ∧ SortModifier.descending a b = 0) ∧
    SortModifier.modify { direction := .asc, orderByColumn := "y" }
        [("y", [Cell.bool false, Cell.num 0, Cell.str ""])] =
      [("y", [Cell.bool false, Cell.num 0, Cell.str ""])] ∧
    SortModifier.modify { direction := .desc, orderByColumn := "y" }
        [("y", [Cell.bool false, Cell.num 0, Cell.str ""])] =
      [("y", [Cell.bool false, Cell.num 0, Cell.str ""])] := by
  refine ⟨?_, by decide, by decide⟩
  intro a b ha hb
  simp [SortModifier.ascending, SortModifier.descending, SortModifier.jsOrZero,
    ha, hb, jsLt, jsToNumber, optLt]

/-- Witness for C10 at a concrete falsy pair. -/
theorem sort_comparator_falsy_witness :
    jsTruthy Cell.undef = false ∧ jsTruthy (Cell.str "") = false ∧
      SortModifier.ascending Cell.undef (Cell.str "") = 0 ∧
      SortModifier.descending Cell.undef (Cell.str "") = 0 :=
  ⟨by decide, by decide,
    (sort_comparator_falsy.1 Cell.undef (Cell.str "") (by decide) (by decide)).1,
    (sort_comparator_falsy.1 Cell.undef (Cell.str "") (by decide) (by decide)).2⟩

/-! ## Behaviour of `setCell` and of rank-writing folds -/

theorem getColumn_setPadMap_ne (t : DataTable) (c name : String) (v : Cell) (i : Nat)
    (h : name ≠ c) :
    DataTable.getColumn
        (t.map (fun c' => if c'.1 = c then (c'.1, DataTable.setPad c'.2 i v) else c')) name =
      DataTable.getColumn t name := by
  induction t with
  | nil => rfl
  | cons hd tl ih =>
    simp only [List.map_cons]
    by_cases h1 : hd.1 = c
    · have h2 : ¬ hd.1 = name := fun hh => h (hh ▸ h1)
      simp [DataTable.getColumn, h1, h2, Ne.symm h, ih]
    · by_cases h2 : hd.1 = name
      · simp [DataTable.getColumn, h1, h2, h]
      · simp [DataTable.getColumn, h1, h2, ih]

theorem getColumn_setPadMap_self (t : DataTable) (c : String) (v : Cell) (i : Nat)
    (h : DataTable.hasColumn t c = true) :
    DataTable.getColumn
        (t.map (fun c' => if c'.1 = c then (c'.1, DataTable.setPad c'.2 i v) else c')) c =
      some (DataTable.setPad ((DataTable.getColumn t c).getD []) i v) := by
  induction t with
  | nil => simp [DataTable.hasColumn] at h
  | cons hd tl ih =>
    simp only [List.map_cons]
    by_cases h1 : hd.1 = c
    · simp [DataTable.getColumn, h1]
    · have h' : DataTable.hasColumn tl c = true := by
        simpa [DataTable.hasColumn, h1] using h
      simp [DataTable.getColumn, h1, ih h']

theorem getColumn_append_single_ne (t : DataTable) (c name : String) (col : List Cell)
    (h : name ≠ c) :
    DataTable.getColumn (t ++ [(c, col)]) name = DataTable.getColumn t name := by
  induction t with
  | nil => simp [DataTable.getColumn, Ne.symm h]
  | cons hd tl ih =>
    by_cases h2 : hd.1 = name <;> simp [DataTable.getColumn, h2, ih]

theorem getColumn_eq_none_of_not_hasColumn (t : DataTable) (c : String)
    (h : DataTable.hasColumn t c = false) :
    DataTable.getColumn t c = none := by
  induction t with
  | nil => rfl
  | cons hd tl ih =>
    simp only [DataTable.hasColumn, Bool.or_eq_false_iff, beq_eq_false_iff_ne, ne_eq] at h
    simp [DataTable.getColumn, h.1, ih h.2]

theorem getColumn_setCell_ne (t : DataTable) (i : Nat) (c name : String) (v : Cell)
    (h : name ≠ c) :
    DataTable.getColumn (DataTable.setCell t i c v) name = DataTable.getColumn t name := by
  unfold DataTable.setCell
  split
  · exact getColumn_setPadMap_ne t c name v i h
  · exact getColumn_append_single_ne t c name _ h

theorem getColumn_setCell_self (t : DataTable) (i : Nat) (c : String) (v : Cell) :
    DataTable.getColumn (DataTable.setCell t i c v) c =
      some (DataTable.setPad ((DataTable.getColumn t c).getD []) i v) := by
  unfold DataTable.setCell
  split
  case isTrue h => exact getColumn_setPadMap_self t c v i h
  case isFalse h =>
    have hnone : DataTable.getColumn t c = none :=
      getColumn_eq_none_of_not_hasColumn t c (by simpa using h)
    rw [hnone]
    induction t with
    | nil => simp [DataTable.getColumn]
    | cons hd tl ih =>
      simp only [DataTable.hasColumn, Bool.or_eq_true, beq_iff_eq] at h
      push_neg at h
      simp only [DataTable.getColumn, if_neg h.1] at hnone
      simp [DataTable.getColumn, h.1, ih (by simpa using h.2) hnone]

theorem hasColumn_of_getColumn_eq_some (t : DataTable) (c : String) (col : List Cell)
    (h : DataTable.getColumn t c = some col) :
    DataTable.hasColumn t c = true := by
  induction t with
  | nil => simp [DataTable.getColumn] at h
  | cons hd tl ih =>
    by_cases h1 : hd.1 = c
    · simp [DataTable.hasColumn, h1]
    · simp only [DataTable.getColumn, if_neg h1] at h
      simp [DataTable.hasColumn, h1, ih h]

theorem hasColumn_setCell_self (t : DataTable) (i : Nat) (c : String) (v : Cell) :
    DataTable.hasColumn (DataTable.setCell t i c v) c = true :=
  hasColumn_of_getColumn_eq_some _ _ _ (getColumn_setCell_self t i c v)

theorem getColumnNames_setCell (t : DataTable) (i : Nat) (c : String) (v : Cell) :
    DataTable.getColumnNames (DataTable.setCell t i c v) =
      if DataTable.hasColumn t c then DataTable.getColumnNames t
      else DataTable.getColumnNames t ++ [c] := by
  unfold DataTable.setCell DataTable.getColumnNames
  split
  case isTrue h =>
    rw [List.map_map]
    apply List.map_congr_left
    intro x _
    simp only [Function.comp_apply]
    split <;> rfl
  case isFalse h =>
    simp

theorem hasColumn_iff_mem_names (t : DataTable) (c : String) :
    DataTable.hasColumn t c = true ↔ c ∈ DataTable.getColumnNames t := by
  induction t with
  | nil => simp [DataTable.hasColumn, DataTable.getColumnNames]
  | cons hd tl ih =>
    simp only [DataTable.hasColumn, DataTable.getColumnNames, List.map_cons, List.mem_cons,
      Bool.or_eq_true, beq_iff_eq] at ih ⊢
    rw [ih]
    exact or_congr eq_comm Iff.rfl

/-- The rank-writing fold of `SortModifier.modify`'s `orderInColumn` mode,
over pairs `(rank, rowIndex)`. -/
def rankFold (t : DataTable) (c : String) (ps : List (Nat × Nat)) : DataTable :=
  ps.foldl (fun acc p => DataTable.setCell acc p.2 c (Cell.num p.1)) t

theorem getColumn_rankFold_ne (ps : List (Nat × Nat)) (t : DataTable) (c name : String)
    (h : name ≠ c) :
    DataTable.getColumn (rankFold t c ps) name = DataTable.getColumn t name := by
  induction ps generalizing t with
  | nil => rfl
  | cons p ps ih =>
    unfold rankFold at ih ⊢
    rw [List.foldl_cons, ih, getColumn_setCell_ne _ _ _ _ _ h]

theorem getColumn_rankFold_self (ps : List (Nat × Nat)) (t : DataTable) (c : String)
    (h : ps ≠ []) :
    DataTable.getColumn (rankFold t c ps) c =
      some (ps.foldl (fun col p => DataTable.setPad col p.2 (Cell.num p.1))
        ((DataTable.getColumn t c).getD [])) := by
  induction ps generalizing t with
  | nil => exact absurd rfl h
  | cons p ps ih =>
    unfold rankFold at ih ⊢
    rw [List.foldl_cons, List.foldl_cons]
    rcases ps with _ | ⟨q, qs⟩
    · simp [getColumn_setCell_self]
    · rw [ih _ (by simp), getColumn_setCell_self]
      simp

theorem getColumnNames_rankFold (ps : List (Nat × Nat)) (t : DataTable) (c : String)
    (h : ps ≠ []) :
    DataTable.getColumnNames (rankFold t c ps) =
      if DataTable.hasColumn t c then DataTable.getColumnNames t
      else DataTable.getColumnNames t ++ [c] := by
  induction ps generalizing t with
  | nil => exact absurd rfl h
  | cons p ps ih =>
    unfold rankFold at ih ⊢
    rw [List.foldl_cons]
    rcases ps with _ | ⟨q, qs⟩
    · simp [rankFold, getColumnNames_setCell]
    · rw [ih _ (by simp), getColumnNames_setCell,
        if_pos (hasColumn_setCell_self t p.2 c (Cell.num p.1))]

theorem foldl_setPad_getD_not_mem (ps : List (Nat × Nat)) (col : List Cell) (j : Nat)
    (h : ∀ p ∈ ps, p.2 ≠ j) :
    (ps.foldl (fun c p => DataTable.setPad c p.2 (Cell.num p.1)) col).getD j Cell.undef =
      col.getD j Cell.undef := by
  induction ps generalizing col with
  | nil => rfl
  | cons p ps ih =>
    rw [List.foldl_cons, ih _ (fun q hq => h q (by simp [hq]))]
    exact setPad_getD_ne col p.2 (Cell.num p.1) j (fun hh => (h p (by simp)) hh.symm)

theorem foldl_setPad_getD_mem (ps : List (Nat × Nat)) (col : List Cell) (i j : Nat)
    (hnd : (ps.map Prod.snd).Nodup) (hmem : (i, j) ∈ ps) :
    (ps.foldl (fun c p => DataTable.setPad c p.2 (Cell.num p.1)) col).getD j Cell.undef =
      Cell.num i := by
  induction ps generalizing col with
  | nil => cases hmem
  | cons p ps ih =>
    rw [List.map_cons, List.nodup_cons] at hnd
    rw [List.foldl_cons]
    rcases List.mem_cons.mp hmem with he | hm
    · subst he
      rw [foldl_setPad_getD_not_mem ps _ j ?_]
      · exact setPad_getD_eq col j (Cell.num i)
      · intro q hq hqj
        have hqmem : q.2 ∈ ps.map Prod.snd := List.mem_map_of_mem Prod.snd hq
        rw [hqj] at hqmem
        exact hnd.1 hqmem
    · exact ih _ hnd.2 hm

theorem foldl_setPad_length (ps : List (Nat × Nat)) (col : List Cell) :
    (ps.foldl (fun c p => DataTable.setPad c p.2 (Cell.num p.1)) col).length =
      ps.foldl (fun m p => max m (p.2 + 1)) col.length := by
  induction ps generalizing col with
  | nil => rfl
  | cons p ps ih =>
    rw [List.foldl_cons, List.foldl_cons, ih, setPad_length]

theorem foldl_max_range (n a : Nat) :
    (List.range n).foldl (fun m i => max m (i + 1)) a = max a n := by
  induction n generalizing a with
  | zero => simp
  | succ n ih =>
    rw [List.range_succ, List.foldl_append, ih]
    simp only [List.foldl_cons, List.foldl_nil]
    omega

theorem eq_range_map_of_getD {α : Type _} (l : List α) (d : α) (f : Nat → α) (n : Nat)
    (hlen : l.length = n) (h : ∀ j, j < n → l.getD j d = f j) :
    l = (List.range n).map f := by
  apply List.ext_getElem
  · simp [hlen]
  · intro i h1 h2
    have hi : i < n := by omega
    have hD := h i hi
    rw [List.getD_eq_getElem?_getD, List.getElem?_eq_getElem h1] at hD
    simp only [Option.getD_some] at hD
    rw [List.getElem_map, List.getElem_range]
    exact hD

/-! ## Rows of a table -/

theorem getRow_getD (t : DataTable) (i k : Nat) (hk : k < t.length) :
    (DataTable.getRow t i).getD k Cell.undef = t[k].2.getD i Cell.undef := by
  unfold DataTable.getRow
  rw [List.getD_eq_getElem?_getD, List.getElem?_map, List.getElem?_eq_getElem hk]
  simp

theorem tableRows_length (t : DataTable) :
    (DataTable.tableRows t).length = DataTable.getRowCount t := by
  simp [DataTable.tableRows]

theorem getColumn_mem (t : DataTable) (c : String) (col : List Cell)
    (h : DataTable.getColumn t c = some col) : (c, col) ∈ t := by
  induction t with
  | nil => simp [DataTable.getColumn] at h
  | cons hd tl ih =>
    rcases hd with ⟨nm, cl⟩
    by_cases h1 : nm = c
    · simp only [DataTable.getColumn, if_pos h1, Option.some.injEq] at h
      subst h1
      subst h
      exact List.mem_cons_self _ _
    · simp only [DataTable.getColumn, if_neg h1] at h
      exact List.mem_cons_of_mem _ (ih h)

theorem replaceRows_tableRows (t : DataTable) (n : Nat)
    (hreg : DataTable.regular t n) (hn : DataTable.getRowCount t = n) :
    DataTable.replaceRows t (DataTable.tableRows t) = t := by
  unfold DataTable.replaceRows
  apply List.ext_getElem
  · simp
  · intro k h1 h2
    have hk : k < t.length := by simpa using h1
    rw [List.getElem_mapIdx]
    have hcol : (DataTable.tableRows t).map (fun r => r.getD k Cell.undef) = t[k].2 := by
      unfold DataTable.tableRows
      rw [hn, List.map_map]
      have heq : ∀ i ∈ List.range n,
          ((fun r => r.getD k Cell.undef) ∘ DataTable.getRow t) i =
            (fun i => t[k].2.getD i Cell.undef) i := by
        intro i _
        exact getRow_getD t i k hk
      rw [List.map_congr_left heq]
      exact map_range_getD t[k].2 Cell.undef n (hreg t[k] (List.getElem_mem hk))
    rw [hcol]

/-- C8 counterexample: with `orderByColumn` missing but `orderInColumn`
set, `SortModifier.modify` writes a rank column, so the table changes. -/
theorem sort_missing_column_counterexample :
    SortModifier.modify { orderByColumn := "x", orderInColumn := some "r" }
        [("a", [Cell.num 5])] ≠ [("a", [Cell.num 5])] := by decide

/-- C8 amended: when `orderByColumn` is absent from the column names,
`modify` does not reorder rows; with `orderInColumn` falsy (unset or the
empty string) the table is completely unchanged, but with `orderInColumn`
set to a non-empty name `c` (and at least one row) the column `c` is
written with each row's own index `0..n-1` (the ranks of the unsorted
rows), all other columns are unchanged, and `c` is appended to the column
names when it was absent.  The `execute` and `afterExecute` events fire
unconditionally. -/
theorem sort_missing_column_amended (o : SortOptions) (t : DataTable) (n : Nat)
    (hreg : DataTable.regular t n) (hn : DataTable.getRowCount t = n)
    (h : o.orderByColumn ∉ DataTable.getColumnNames t) :
    (o.orderInColumn = none ∨ o.orderInColumn = some "" →
      SortModifier.modify o t = t) ∧
    (∀ c, o.orderInColumn = some c → c ≠ "" → 0 < n →
      DataTable.getColumn (SortModifier.modify o t) c =
          some ((List.range n).map (fun j => Cell.num (Int.ofNat j))) ∧
        (∀ name, name ≠ c →
          DataTable.getColumn (SortModifier.modify o t) name = DataTable.getColumn t name) ∧
        DataTable.getColumnNames (SortModifier.modify o t) =
          (if DataTable.hasColumn t c then DataTable.getColumnNames t
            else DataTable.getColumnNames t ++ [c])) ∧
    SortModifier.modifyEvents = ["execute", "afterExecute"] := by
  have hfind : (DataTable.getColumnNames t).findIdx? (fun nm => nm == o.orderByColumn) =
      none := by
    rw [List.findIdx?_eq_none_iff]
    intro x hx
    simp only [beq_eq_false_iff_ne, ne_eq]
    exact fun hxx => h (hxx ▸ hx)
  have hrows_len : (DataTable.tableRows t).length = n := by rw [tableRows_length, hn]
  refine ⟨?_, ?_, rfl⟩
  · intro ho
    have hgoal : DataTable.replaceRows t
        ((DataTable.tableRows t).enum.map Prod.snd) = t := by
      rw [List.enum_map_snd]
      exact replaceRows_tableRows t n hreg hn
    rcases ho with ho | ho
    · simp only [SortModifier.modify, hfind, ho]
      exact hgoal
    · simp only [SortModifier.modify, hfind, ho]
      rw [if_pos trivial]
      exact hgoal
  · intro c ho hc hpos
    simp only [SortModifier.modify, hfind, ho]
    rw [if_neg hc]
    have hconv :
        ((DataTable.tableRows t).enum.enum.foldl
            (fun acc p => DataTable.setCell acc p.2.1 c (Cell.num p.1)) t) =
          rankFold t c ((DataTable.tableRows t).enum.enum.map (fun p => (p.1, p.2.1))) := by
      unfold rankFold
      rw [List.foldl_map]
    have hps : (DataTable.tableRows t).enum.enum.map (fun p => (p.1, p.2.1)) =
        (List.range n).map (fun j => (j, j)) := by
      apply List.ext_getElem
      · simp [hrows_len]
      · intro k h1 h2
        have hk1 : k < (DataTable.tableRows t).enum.length := by simpa using h1
        have hk2 : k < (DataTable.tableRows t).length := by simpa using h1
        simp [List.getElem_enum, hk1, hk2]
    have hne : ((List.range n).map (fun j => (j, j)) : List (Nat × Nat)) ≠ [] := by
      intro hh
      rw [List.map_eq_nil_iff, List.range_eq_nil] at hh
      omega
    have hnodup : (((List.range n).map (fun j => (j, j)) : List (Nat × Nat)).map
        Prod.snd).Nodup := by
      rw [List.map_map]
      have : (Prod.snd ∘ fun j => ((j : Nat), j)) = id := rfl
      rw [this, List.map_id]
      exact List.nodup_range n
    have hbase : ((DataTable.getColumn t c).getD []).length = n ∨
        (DataTable.getColumn t c).getD [] = [] := by
      rcases hgc : DataTable.getColumn t c with _ | col
      · exact Or.inr rfl
      · exact Or.inl (hreg (c, col) (getColumn_mem t c col hgc))
    rw [hconv, hps]
    have hcol := getColumn_rankFold_self ((List.range n).map (fun j => (j, j))) t c hne
    have hcontent : ((List.range n).map (fun j => ((j : Nat), j))).foldl
        (fun col p => DataTable.setPad col p.2 (Cell.num p.1))
        ((DataTable.getColumn t c).getD []) =
        (List.range n).map (fun j => Cell.num (Int.ofNat j)) := by
      apply eq_range_map_of_getD _ Cell.undef _ n
      · rw [foldl_setPad_length, List.foldl_map]
        simp only
        rw [foldl_max_range]
        rcases hbase with hb | hb
        · omega
        · rw [hb]
          simp
      · intro j hj
        apply foldl_setPad_getD_mem _ _ j j hnodup
        exact List.mem_map_of_mem _ (List.mem_range.mpr hj)
    refine ⟨?_, ?_, ?_⟩
    · rw [hcol, hcontent]
    · intro name hname
      exact getColumn_rankFold_ne _ t c name hname
    · exact getColumnNames_rankFold _ t c hne

/-- Witness for C8's amended theorem at a concrete input. -/
theorem sort_missing_column_amended_witness :
    SortModifier.modify { orderByColumn := "x", orderInColumn := some "r" }
        [("a", [Cell.num 5])] = [("a", [Cell.num 5]), ("r", [Cell.num 0])] ∧
      DataTable.getColumn
          (SortModifier.modify { orderByColumn := "x", orderInColumn := some "r" }
            [("a", [Cell.num 5])]) "r" =
        some [Cell.num 0] := by
  constructor
  · decide
  · have hreg : DataTable.regular [("a", [Cell.num 5])] 1 := by
      intro c hc
      rcases List.mem_singleton.mp hc with rfl
      rfl
    have hmem : "x" ∉ DataTable.getColumnNames [("a", [Cell.num 5])] := by decide
    have := (sort_missing_column_amended
      { orderByColumn := "x", orderInColumn := some "r" }
      [("a", [Cell.num 5])] 1 hreg rfl hmem).2.1 "r" rfl (by decide) (by decide)
    exact this.1.trans (by decide)

/-! ## RangeModifier

Embedded from `RangeModifier` (`src/unnamed/part_001`): for each
configured range (skipped wholesale under `strict` when the bound types
differ), every cell of the range's column is scanned — only boolean,
number and string cells are comparable, and `strict` additionally
requires the cell's type to equal `minValue`'s — and each passing cell's
full row is appended to the collected list; finally the table's rows are
replaced wholesale with that list (the table is untouched when `ranges`
is empty). -/

/-- A range bound (`boolean|number|string`). -/
inductive Prim where
  | bool (b : Bool)
  | num (n : Int)
  | str (s : String)
  deriving DecidableEq

def Prim.toCell : Prim → Cell
  | .bool b => .bool b
  | .num n => .num n
  | .str s => .str s

def Prim.jsType : Prim → JSType
  | .bool _ => .boolean
  | .num _ => .number
  | .str _ => .string

structure RangeSpec where
  column : String
  minValue : Prim
  maxValue : Prim
  deriving DecidableEq

structure RangeOptions where
  strict : Bool := false
  ranges : List RangeSpec := []
  deriving DecidableEq

/-- The cell of column `c` at row `j` (`undefined` when out of range or
when the column is missing). -/
def columnCell (t : DataTable) (c : String) (j : Nat) : Cell :=
  ((DataTable.getColumn t c).getD []).getD j Cell.undef

namespace RangeModifier

def defaultOptions : RangeOptions := {}

/-- `strict && typeof range.minValue !== typeof range.maxValue`: the
whole range is skipped. -/
def rangeSkipped (strict : Bool) (r : RangeSpec) : Bool :=
  strict && r.minValue.jsType != r.maxValue.jsType

/-- The per-cell test of the row scan: the `typeof cell` switch, the
strict type check, and `cell >= minValue && cell <= maxValue`. -/
def cellInRange (strict : Bool) (r : RangeSpec) (cell : Cell) : Bool :=
  (jsTypeof cell == JSType.boolean || jsTypeof cell == JSType.number ||
      jsTypeof cell == JSType.string) &&
    (!strict || jsTypeof cell == r.minValue.jsType) &&
    jsLe r.minValue.toCell cell && jsLe cell r.maxValue.toCell

/-- Rows collected for one range, in row order. -/
def matchedRows (o : RangeOptions) (t : DataTable) (r : RangeSpec) : List (List Cell) :=
  if rangeSkipped o.strict r then []
  else
    ((List.range ((DataTable.getColumn t r.column).getD []).length).filter
        (fun j => cellInRange o.strict r (columnCell t r.column j))).map
      (DataTable.getRow t)

/-- All collected rows, ranges in order, matches concatenated. -/
def collectedRows (o : RangeOptions) (t : DataTable) : List (List Cell) :=
  o.ranges.foldl (fun acc r => acc ++ matchedRows o t r) []

/-- `RangeModifier.modify`. -/
def modify (o : RangeOptions) (t : DataTable) : DataTable :=
  if o.ranges.isEmpty then t
  else DataTable.replaceRows t (collectedRows o t)

/-- The spec's retention predicate, written from the spec's words: the
range's bounds contain the value and, under `strict`, the types of the
value and of both bounds agree. -/
def specMatches (strict : Bool) (r : RangeSpec) (v : Cell) : Bool :=
  jsLe r.minValue.toCell v && jsLe v r.maxValue.toCell &&
    (!strict || (jsTypeof v == r.minValue.jsType && r.minValue.jsType == r.maxValue.jsType))

end RangeModifier

theorem optLe_none_right (x : Option Int) : optLe x none = false := by cases x <;> rfl

theorem jsLe_undef_right (a : Cell) : jsLe a Cell.undef = false := by
  cases a <;> simp [jsLe, jsToNumber, optLe, optLe_none_right]

theorem jsLe_undef_left (b : Cell) : jsLe Cell.undef b = false := by
  cases b <;> simp [jsLe, jsToNumber, optLe]

theorem jsLe_table_right (a : Cell) (cols : List (String × List Cell)) :
    jsLe a (Cell.table cols) = false := by
  cases a <;> simp [jsLe, jsToNumber, optLe, optLe_none_right]

theorem jsLe_table_left (b : Cell) (cols : List (String × List Cell)) :
    jsLe (Cell.table cols) b = false := by
  cases b <;> simp [jsLe, jsToNumber, optLe]

/-- The spec's retention predicate coincides with the source's combined
range-skip and cell checks. -/
theorem specMatches_eq_code (strict : Bool) (r : RangeSpec) (v : Cell) :
    RangeModifier.specMatches strict r v =
      (!(RangeModifier.rangeSkipped strict r) && RangeModifier.cellInRange strict r v) := by
  have hbool : ∀ s A B L1 L2 : Bool,
      (L1 && L2 && (!s || (A && B))) = (!(s && !B) && ((true && (!s || A) && L1) && L2)) := by
    decide
  cases v with
  | undef =>
    simp [RangeModifier.specMatches, RangeModifier.cellInRange, RangeModifier.rangeSkipped,
      jsLe_undef_right, jsLe_undef_left, jsTypeof]
  | table cols =>
    simp [RangeModifier.specMatches, RangeModifier.cellInRange, RangeModifier.rangeSkipped,
      jsLe_table_right, jsLe_table_left, jsTypeof]
  | bool b =>
    show (jsLe r.minValue.toCell (Cell.bool b) && jsLe (Cell.bool b) r.maxValue.toCell &&
        (!strict || (JSType.boolean == r.minValue.jsType &&
          r.minValue.jsType == r.maxValue.jsType))) =
      (!(strict && r.minValue.jsType != r.maxValue.jsType) &&
        ((true && (!strict || JSType.boolean == r.minValue.jsType) &&
          jsLe r.minValue.toCell (Cell.bool b)) && jsLe (Cell.bool b) r.maxValue.toCell))
    exact hbool strict (JSType.boolean == r.minValue.jsType)
      (r.minValue.jsType == r.maxValue.jsType) (jsLe r.minValue.toCell (Cell.bool b))
      (jsLe (Cell.bool b) r.maxValue.toCell)
  | num nn =>
    show (jsLe r.minValue.toCell (Cell.num nn) && jsLe (Cell.num nn) r.maxValue.toCell &&
        (!strict || (JSType.number == r.minValue.jsType &&
          r.minValue.jsType == r.maxValue.jsType))) =
      (!(strict && r.minValue.jsType != r.maxValue.jsType) &&
        ((true && (!strict || JSType.number == r.minValue.jsType) &&
          jsLe r.minValue.toCell (Cell.num nn)) && jsLe (Cell.num nn) r.maxValue.toCell))
    exact hbool strict (JSType.number == r.minValue.jsType)
      (r.minValue.jsType == r.maxValue.jsType) (jsLe r.minValue.toCell (Cell.num nn))
      (jsLe (Cell.num nn) r.maxValue.toCell)
  | str s =>
    show (jsLe r.minValue.toCell (Cell.str s) && jsLe (Cell.str s) r.maxValue.toCell &&
        (!strict || (JSType.string == r.minValue.jsType &&
          r.minValue.jsType == r.maxValue.jsType))) =
      (!(strict && r.minValue.jsType != r.maxValue.jsType) &&
        ((true && (!strict || JSType.string == r.minValue.jsType) &&
          jsLe r.minValue.toCell (Cell.str s)) && jsLe (Cell.str s) r.maxValue.toCell))
    exact hbool strict (JSType.string == r.minValue.jsType)
      (r.minValue.jsType == r.maxValue.jsType) (jsLe r.minValue.toCell (Cell.str s))
      (jsLe (Cell.str s) r.maxValue.toCell)

theorem getRowCount_cons (c : String × List Cell) (t : DataTable) :
    DataTable.getRowCount (c :: t) = max c.2.length (DataTable.getRowCount t) := rfl

theorem getRowCount_const (t : DataTable) (m : Nat) (h : ∀ c ∈ t, c.2.length = m)
    (hne : t ≠ []) : DataTable.getRowCount t = m := by
  induction t with
  | nil => exact absurd rfl hne
  | cons hd tl ih =>
    rw [getRowCount_cons, h hd (by simp)]
    rcases tl with _ | ⟨hd2, tl2⟩
    · simp [DataTable.getRowCount]
    · rw [ih (fun c hc => h c (by simp [hc])) (by simp)]
      simp

theorem tableRows_replaceRows (t : DataTable) (rows : List (List Cell))
    (hrows : ∀ r ∈ rows, r.length = t.length) (ht : t ≠ []) :
    DataTable.tableRows (DataTable.replaceRows t rows) = rows := by
  have hlen : ∀ c ∈ DataTable.replaceRows t rows, c.2.length = rows.length := by
    intro c hc
    rcases List.mem_iff_getElem.mp hc with ⟨k, hk, hke⟩
    unfold DataTable.replaceRows at hke
    rw [List.getElem_mapIdx] at hke
    rw [← hke]
    simp
  have hne : DataTable.replaceRows t rows ≠ [] := by
    intro hh
    apply ht
    have := congrArg List.length hh
    unfold DataTable.replaceRows at this
    simpa using this
  have hrc : DataTable.getRowCount (DataTable.replaceRows t rows) = rows.length :=
    getRowCount_const _ _ hlen hne
  unfold DataTable.tableRows
  rw [hrc]
  apply List.ext_getElem
  · simp
  · intro j h1 h2
    have hj : j < rows.length := by simpa using h1
    rw [List.getElem_map, List.getElem_range]
    apply List.ext_getElem
    · unfold DataTable.getRow DataTable.replaceRows
      simp [hrows rows[j] (List.getElem_mem hj)]
    · intro k hk1 hk2
      unfold DataTable.getRow DataTable.replaceRows at hk1 ⊢
      have hkt : k < t.length := by simpa using hk1
      rw [List.getElem_map, List.getElem_mapIdx]
      simp only
      rw [List.getD_eq_getElem?_getD, List.getElem?_map, List.getElem?_eq_getElem hj]
      simp [List.getD_eq_getElem?_getD, List.getElem?_eq_getElem hk2]

theorem foldl_append_eq_flatMap {α β : Type _} (l : List α) (g : α → List β) (init : List β) :
    l.foldl (fun acc x => acc ++ g x) init = init ++ l.flatMap g := by
  induction l generalizing init with
  | nil => simp
  | cons x xs ih => simp [List.foldl_cons, ih]

theorem columnCell_eq_of_getRow_eq (t : DataTable) (j j' : Nat)
    (h : DataTable.getRow t j' = DataTable.getRow t j) (c : String) :
    columnCell t c j' = columnCell t c j := by
  unfold columnCell
  rcases hgc : DataTable.getColumn t c with _ | col
  · rfl
  · have hmem := getColumn_mem t c col hgc
    rcases List.mem_iff_getElem.mp hmem with ⟨k, hk, hte⟩
    have h1 := congrArg (fun l => l.getD k Cell.undef) h
    simp only at h1
    rw [getRow_getD t j' k hk, getRow_getD t j k hk, hte] at h1
    simpa using h1

theorem cellInRange_undef (strict : Bool) (r : RangeSpec) :
    RangeModifier.cellInRange strict r Cell.undef = false := by
  simp [RangeModifier.cellInRange, jsTypeof]

theorem columnCell_of_column_length (t : DataTable) (n : Nat)
    (hreg : DataTable.regular t n) (c : String) (col : List Cell)
    (hgc : DataTable.getColumn t c = some col) : col.length = n :=
  hreg (c, col) (getColumn_mem t c col hgc)

/-- Membership in the rows matched by a single range. -/
theorem mem_matchedRows_iff (o : RangeOptions) (t : DataTable) (n : Nat)
    (hreg : DataTable.regular t n) (r : RangeSpec) (j : Nat) (hj : j < n) :
    DataTable.getRow t j ∈ RangeModifier.matchedRows o t r ↔
      RangeModifier.specMatches o.strict r (columnCell t r.column j) = true := by
  rw [specMatches_eq_code]
  unfold RangeModifier.matchedRows
  split
  case isTrue hskip => simp [hskip]
  case isFalse hskip =>
    have hskip' : (!(RangeModifier.rangeSkipped o.strict r)) = true := by
      simpa using hskip
    rw [hskip']
    simp only [Bool.true_and, List.mem_map, List.mem_filter, List.mem_range]
    constructor
    · rintro ⟨j', ⟨hj'lt, hj'in⟩, hj'eq⟩
      rcases hgc : DataTable.getColumn t r.column with _ | col
      · rw [hgc] at hj'lt
        simp at hj'lt
      · have hcl : col.length = n := columnCell_of_column_length t n hreg r.column col hgc
        have hj'n : j' < n := by
          rw [hgc] at hj'lt
          simpa [hcl] using hj'lt
        rw [columnCell_eq_of_getRow_eq t j j' hj'eq r.column] at hj'in
        exact hj'in
    · intro hin
      refine ⟨j, ⟨?_, hin⟩, rfl⟩
      rcases hgc : DataTable.getColumn t r.column with _ | col
      · exfalso
        unfold columnCell at hin
        rw [hgc] at hin
        simp only [Option.getD_none, List.getD_nil] at hin
        rw [cellInRange_undef] at hin
        cases hin
      · have hcl : col.length = n := columnCell_of_column_length t n hreg r.column col hgc
        simpa [hcl] using hj

theorem count_map_getRow (t : DataTable) (n : Nat) (l : List Nat) (hnd : l.Nodup)
    (hlt : ∀ i ∈ l, i < n) (j : Nat) (hj : j < n)
    (hdist : ∀ j', j' < n → DataTable.getRow t j' = DataTable.getRow t j → j' = j) :
    (l.map (DataTable.getRow t)).count (DataTable.getRow t j) = if j ∈ l then 1 else 0 := by
  induction l with
  | nil => simp
  | cons i l ih =>
    rw [List.nodup_cons] at hnd
    rw [List.map_cons, List.count_cons]
    rw [ih hnd.2 (fun x hx => hlt x (by simp [hx]))]
    by_cases hij : i = j
    · subst hij
      have hnotmem : i ∉ l := hnd.1
      simp [hnotmem]
    · have hne : ¬ (DataTable.getRow t i = DataTable.getRow t j) := by
        intro hh
        exact hij (hdist i (hlt i (by simp)) hh)
      have hbeq : (DataTable.getRow t i == DataTable.getRow t j) = false := by
        simpa using hne
      simp [hbeq, hij, Ne.symm hij]

/-- Count of one original row among the rows matched by a single range. -/
theorem count_matchedRows (o : RangeOptions) (t : DataTable) (n : Nat)
    (hreg : DataTable.regular t n) (r : RangeSpec) (j : Nat) (hj : j < n)
    (hdist : ∀ j', j' < n → DataTable.getRow t j' = DataTable.getRow t j → j' = j) :
    (RangeModifier.matchedRows o t r).count (DataTable.getRow t j) =
      if RangeModifier.specMatches o.strict r (columnCell t r.column j) then 1 else 0 := by
  rw [specMatches_eq_code]
  unfold RangeModifier.matchedRows
  split
  case isTrue hskip => simp [hskip]
  case isFalse hskip =>
    have hskip' : (!(RangeModifier.rangeSkipped o.strict r)) = true := by simpa using hskip
    rw [hskip', Bool.true_and]
    rw [count_map_getRow t n _ (List.Nodup.filter _ (List.nodup_range _))
      (fun i hi => ?_) j hj hdist]
    · rcases hgc : DataTable.getColumn t r.column with _ | col
      · have hcc : columnCell t r.column j = Cell.undef := by
          unfold columnCell
          rw [hgc]
          simp
        simp [hcc, cellInRange_undef]
      · have hcl : col.length = n := columnCell_of_column_length t n hreg r.column col hgc
        simp only [Option.getD_some, List.mem_filter, List.mem_range]
        by_cases hin : RangeModifier.cellInRange o.strict r (columnCell t r.column j) = true
        · simp [hin, hcl, hj]
        · simp only [Bool.not_eq_true] at hin
          simp [hin]
    · have := List.mem_filter.mp hi
      have hirange := List.mem_range.mp this.1
      rcases hgc : DataTable.getColumn t r.column with _ | col
      · rw [hgc] at hirange
        simp at hirange
      · have hcl : col.length = n := columnCell_of_column_length t n hreg r.column col hgc
        rw [hgc] at hirange
        simpa [hcl] using hirange

theorem getRow_length (t : DataTable) (i : Nat) :
    (DataTable.getRow t i).length = t.length := by
  simp [DataTable.getRow]

theorem collectedRows_eq_flatMap (o : RangeOptions) (t : DataTable) :
    RangeModifier.collectedRows o t = o.ranges.flatMap (RangeModifier.matchedRows o t) := by
  unfold RangeModifier.collectedRows
  rw [foldl_append_eq_flatMap]
  simp

/-- C3: with a non-empty `ranges` configuration, a row is present in the
result exactly when some configured range's bounds contain the row's
value in that range's column (with all three types agreeing under
`strict`), and — matches being concatenated without deduplication — a
(unique) row appears once per configured range it satisfies, so a row
satisfying two ranges appears twice. -/
theorem range_inclusion_law (o : RangeOptions) (t : DataTable) (n : Nat)
    (hreg : DataTable.regular t n) (hn : DataTable.getRowCount t = n)
    (hne : o.ranges ≠ []) (j : Nat) (hj : j < n) :
    (DataTable.getRow t j ∈ DataTable.tableRows (RangeModifier.modify o t) ↔
      ∃ r ∈ o.ranges,
        RangeModifier.specMatches o.strict r (columnCell t r.column j) = true) ∧
    ((∀ j', j' < n → DataTable.getRow t j' = DataTable.getRow t j → j' = j) →
      (DataTable.tableRows (RangeModifier.modify o t)).count (DataTable.getRow t j) =
        o.ranges.countP
          (fun r => RangeModifier.specMatches o.strict r (columnCell t r.column j))) := by
  have ht : t ≠ [] := by
    intro hh
    subst hh
    simp [DataTable.getRowCount] at hn
    omega
  have hrows : DataTable.tableRows (RangeModifier.modify o t) =
      RangeModifier.collectedRows o t := by
    unfold RangeModifier.modify
    rw [if_neg (by simpa [List.isEmpty_iff] using hne)]
    apply tableRows_replaceRows _ _ ?_ ht
    intro r hr
    rw [collectedRows_eq_flatMap] at hr
    rcases List.mem_flatMap.mp hr with ⟨rg, _, hmem⟩
    unfold RangeModifier.matchedRows at hmem
    split at hmem
    · cases hmem
    · rcases List.mem_map.mp hmem with ⟨j'', _, hje⟩
      rw [← hje]
      exact getRow_length t j''
  constructor
  · rw [hrows, collectedRows_eq_flatMap, List.mem_flatMap]
    exact exists_congr (fun r => and_congr_right
      (fun _ => mem_matchedRows_iff o t n hreg r j hj))
  · intro hdist
    rw [hrows, collectedRows_eq_flatMap]
    induction o.ranges with
    | nil => simp
    | cons r rs ih =>
      rw [List.flatMap_cons, List.count_append, List.countP_cons, ih,
        count_matchedRows o t n hreg r j hj hdist]
      split <;> omega

/-- Witness for C3: the row `[1]` satisfies both configured ranges on
column `a` and therefore appears twice in the result. -/
theorem range_inclusion_law_witness :
    (DataTable.getRow [("a", [Cell.num 1, Cell.num 5])] 0 ∈
      DataTable.tableRows (RangeModifier.modify
        { ranges := [⟨"a", Prim.num 0, Prim.num 1⟩, ⟨"a", Prim.num 1, Prim.num 2⟩] }
        [("a", [Cell.num 1, Cell.num 5])])) ∧
    (DataTable.tableRows (RangeModifier.modify
        { ranges := [⟨"a", Prim.num 0, Prim.num 1⟩, ⟨"a", Prim.num 1, Prim.num 2⟩] }
        [("a", [Cell.num 1, Cell.num 5])])).count
      (DataTable.getRow [("a", [Cell.num 1, Cell.num 5])] 0) = 2 := by
  have hreg : DataTable.regular [("a", [Cell.num 1, Cell.num 5])] 2 := by
    intro c hc
    rcases List.mem_singleton.mp hc with rfl
    rfl
  have hmain := range_inclusion_law
    { ranges := [⟨"a", Prim.num 0, Prim.num 1⟩, ⟨"a", Prim.num 1, Prim.num 2⟩] }
    [("a", [Cell.num 1, Cell.num 5])] 2 hreg rfl (by decide) 0 (by decide)
  constructor
  · exact hmain.1.mpr (by decide)
  · rw [hmain.2 (by decide)]
    decide

/-! ## GroupModifier

Embedded from `GroupModifier` (`src/unnamed/part_002`): rows are grouped
by the value of `groupColumn` (defaulting to the first column); a row is
skipped when its value is `undefined`, a nested table, listed in
`invalidValues`, or absent from a configured `validValues`; a new value
opens a group holding the row (as a row object in a fresh table), a known
value appends the row (as a row array) to its group's table; finally the
table's columns are replaced by `groupBy`/`table`/`value`. -/

structure GroupOptions where
  groupColumn : String := ""
  invalidValues : Option (List Prim) := none
  validValues : Option (List Prim) := none
  deriving DecidableEq

namespace GroupModifier

def defaultOptions : GroupOptions := {}

def cellIsTable : Cell → Bool
  | .table _ => true
  | _ => false

/-- `invalidValues && invalidValues.indexOf(value) >= 0` (skip) and
`validValues && validValues.indexOf(value) === -1` (skip), combined with
the `undefined` and nested-table skips: whether the row is kept. -/
def retained (o : GroupOptions) (value : Cell) : Bool :=
  !(value == Cell.undef) && !(cellIsTable value) &&
    !(match o.invalidValues with
      | some iv => (iv.map Prim.toCell).contains value
      | none => false) &&
    (match o.validValues with
      | some vv => (vv.map Prim.toCell).contains value
      | none => true)

/-- One loop iteration over the grouping state: the parallel arrays
`byGroups` / `tableGroups` / `valueGroups` of the source, kept here as
one list of triples updated in lockstep. -/
def groupStep (o : GroupOptions) (t : DataTable) (groupColumn : String)
    (valueColumn : List Cell) (gs : List (String × DataTable × Cell)) (i : Nat) :
    List (String × DataTable × Cell) :=
  let value := valueColumn.getD i Cell.undef
  if retained o value then
    match gs.findIdx? (fun g => g.2.2 == value) with
    | none =>
        gs ++ [(groupColumn, DataTable.ofRowObject (DataTable.getRowObject t i), value)]
    | some vi =>
        let g := gs.getD vi ("", [], Cell.undef)
        gs.set vi (g.1, DataTable.appendRowArray g.2.1 (DataTable.getRow t i), g.2.2)
  else gs

/-- The grouping column name: `options.groupColumn || getColumnNames()[0]`. -/
def effectiveColumn (o : GroupOptions) (t : DataTable) : String :=
  if o.groupColumn = "" then (DataTable.getColumnNames t).getD 0 "" else o.groupColumn

/-- The grouping state after the whole scan. -/
def groups (o : GroupOptions) (t : DataTable) : List (String × DataTable × Cell) :=
  let groupColumn := effectiveColumn o t
  let valueColumn := (DataTable.getColumn t groupColumn).getD []
  (List.range valueColumn.length).foldl (groupStep o t groupColumn valueColumn) []

/-- `GroupModifier.modify`: `deleteColumns()` followed by
`setColumns({groupBy, table, value})` leaves exactly the three fresh
columns, in that order. -/
def modify (o : GroupOptions) (t : DataTable) : DataTable :=
  let gs := groups o t
  [("groupBy", gs.map (fun g => Cell.str g.1)),
    ("table", gs.map (fun g => Cell.table g.2.1)),
    ("value", gs.map (fun g => g.2.2))]

end GroupModifier

/-! ## InvertModifier

Embedded from `InvertModifier` (`src/ts/Data/Modifiers/InvertModifier.ts`):
a table holding a column literally named `columnNames` is in inverted
form — that column is removed, its entries (string-coerced) become the
header list, and the remaining rows become the columns under those
recovered names; otherwise each row index `i` becomes a column named
`"i"` and a `columnNames` column holding the original header list is
added.  In both branches all previous columns are deleted and the fresh
collection is installed. -/

/-- JS template-string coercion of a cell. -/
def cellToString : Cell → String
  | .str s => s
  | .num n => toString n
  | .bool b => if b then "true" else "false"
  | .undef => "undefined"
  | .table _ => "[object Object]"

namespace InvertModifier

def modify (t : DataTable) : DataTable :=
  if DataTable.hasColumn t "columnNames" then
    let deleted := (DataTable.getColumn t "columnNames").getD []
    let columnNames := deleted.map cellToString
    let t2 := DataTable.deleteColumnsNamed t ["columnNames"]
    let n := DataTable.getRowCount t2
    DataTable.setColumns []
      ((List.range n).map (fun i => (columnNames.getD i "undefined", DataTable.getRow t2 i)))
  else
    let n := DataTable.getRowCount t
    DataTable.setColumns []
      (((List.range n).map (fun i => (toString i, DataTable.getRow t i))) ++
        [("columnNames", (DataTable.getColumnNames t).map Cell.str)])

end InvertModifier

example :
    InvertModifier.modify [("a", [Cell.num 1, Cell.num 2]), ("b", [Cell.str "x", Cell.str "y"])] =
      [("0", [Cell.num 1, Cell.str "x"]), ("1", [Cell.num 2, Cell.str "y"]),
        ("columnNames", [Cell.str "a", Cell.str "b"])] := by decide

example :
    InvertModifier.modify (InvertModifier.modify
        [("a", [Cell.num 1, Cell.num 2]), ("b", [Cell.str "x", Cell.str "y"])]) =
      [("a", [Cell.num 1, Cell.num 2]), ("b", [Cell.str "x", Cell.str "y"])] := by decide

example :
    GroupModifier.modify { groupColumn := "g" }
        [("g", [Cell.str "a", Cell.str "b", Cell.str "a"]), ("v", [Cell.num 1, Cell.num 2, Cell.num 3])] =
      [("groupBy", [Cell.str "g", Cell.str "g"]),
        ("table", [Cell.table [("g", [Cell.str "a", Cell.str "a"]), ("v", [Cell.num 1, Cell.num 3])],
          Cell.table [("g", [Cell.str "b"]), ("v", [Cell.num 2])]]),
        ("value", [Cell.str "a", Cell.str "b"])] := by decide

/-! ## ChainModifier

Embedded from `ChainModifier` (`src/ts/Data/Modifiers/ChainModifier.ts`).
A chain owns an ordered list of modifiers.  `modify` computes the
execution order as `this.modifiers.reverse()` — which MUTATES the stored
array in place — when the `reverse` option is set, and as the copy
`this.modifiers.slice()` otherwise, then applies each child in that
order, feeding the returned table forward.  `modifyM` therefore returns
both the resulting table and the post-call modifier state (the stored
array after the call).  The deferred rename modifier (`SeriesPoints`) has
no synchronous `modify` and is excluded from this sum (spec §5 flags the
chain/deferred contract mismatch). -/

inductive DataMod where
  | sortM (o : SortOptions)
  | rangeM (o : RangeOptions)
  | groupM (o : GroupOptions)
  | invertM
  | chainM (reverse : Bool) (children : List DataMod)

mutual

def dataModBeq : DataMod → DataMod → Bool
  | .sortM a, .sortM b => a == b
  | .rangeM a, .rangeM b => a == b
  | .groupM a, .groupM b => a == b
  | .invertM, .invertM => true
  | .chainM r₁ c₁, .chainM r₂ c₂ => r₁ == r₂ && dataModListBeq c₁ c₂
  | _, _ => false

def dataModListBeq : List DataMod → List DataMod → Bool
  | [], [] => true
  | a :: as, b :: bs => dataModBeq a b && dataModListBeq as bs
  | _, _ => false

end

mutual

theorem dataModBeq_iff : ∀ a b : DataMod, dataModBeq a b = true ↔ a = b
  | .sortM _, .sortM _ => by simp [dataModBeq]
  | .rangeM _, .rangeM _ => by simp [dataModBeq]
  | .groupM _, .groupM _ => by simp [dataModBeq]
  | .invertM, .invertM => by simp [dataModBeq]
  | .chainM r₁ c₁, .chainM r₂ c₂ => by simp [dataModBeq, dataModListBeq_iff c₁ c₂]
  | .sortM _, .rangeM _ => by simp [dataModBeq]
  | .sortM _, .groupM _ => by simp [dataModBeq]
  | .sortM _, .invertM => by simp [dataModBeq]
  | .sortM _, .chainM _ _ => by simp [dataModBeq]
  | .rangeM _, .sortM _ => by simp [dataModBeq]
  | .rangeM _, .groupM _ => by simp [dataModBeq]
  | .rangeM _, .invertM => by simp [dataModBeq]
  | .rangeM _, .chainM _ _ => by simp [dataModBeq]
  | .groupM _, .sortM _ => by simp [dataModBeq]
  | .groupM _, .rangeM _ => by simp [dataModBeq]
  | .groupM _, .invertM => by simp [dataModBeq]
  | .groupM _, .chainM _ _ => by simp [dataModBeq]
  | .invertM, .sortM _ => by simp [dataModBeq]
  | .invertM, .rangeM _ => by simp [dataModBeq]
  | .invertM, .groupM _ => by simp [dataModBeq]
  | .invertM, .chainM _ _ => by simp [dataModBeq]
  | .chainM _ _, .sortM _ => by simp [dataModBeq]
  | .chainM _ _, .rangeM _ => by simp [dataModBeq]
  | .chainM _ _, .groupM _ => by simp [dataModBeq]
  | .chainM _ _, .invertM => by simp [dataModBeq]

theorem dataModListBeq_iff : ∀ a b : List DataMod, dataModListBeq a b = true ↔ a = b
  | [], [] => by simp [dataModListBeq]
  | a :: as, b :: bs => by simp [dataModListBeq, dataModBeq_iff a b, dataModListBeq_iff as bs]
  | [], _ :: _ => by simp [dataModListBeq]
  | _ :: _, [] => by simp [dataModListBeq]

end

instance : DecidableEq DataMod := fun a b => decidable_of_iff _ (dataModBeq_iff a b)

mutual

/-- Apply one modifier: the resulting table, and the modifier's own state
after the call. -/
def modifyM : DataMod → DataTable → DataTable × DataMod
  | .sortM o, t => (SortModifier.modify o t, .sortM o)
  | .rangeM o, t => (RangeModifier.modify o t, .rangeM o)
  | .groupM o, t => (GroupModifier.modify o t, .groupM o)
  | .invertM, t => (InvertModifier.modify t, .invertM)
  | .chainM r ms, t =>
      if r then
        let p := modifyChainRev ms t
        (p.1, .chainM r p.2)
      else
        let p := modifyChain ms t
        (p.1, .chainM r p.2)

/-- Apply the children in stored order (the `slice()` copy); the stored
array keeps its order, with each child's state updated. -/
def modifyChain : List DataMod → DataTable → DataTable × List DataMod
  | [], t => (t, [])
  | m :: ms, t =>
      let p := modifyM m t
      let q := modifyChain ms p.1
      (q.1, p.2 :: q.2)

/-- Apply the children in reverse stored order (`this.modifiers.reverse()`
mutates the stored array in place): the returned list is the stored array
after the call — the reversed order, children applied last-stored first. -/
def modifyChainRev : List DataMod → DataTable → DataTable × List DataMod
  | [], t => (t, [])
  | m :: ms, t =>
      let p := modifyChainRev ms t
      let q := modifyM m p.1
      (q.1, p.2 ++ [q.2])

end

/-- JS `Array.prototype.indexOf` (strict equality, `-1` when absent). -/
def jsIndexOf {α : Type _} [BEq α] (l : List α) (x : α) : Int :=
  match l.findIdx? (fun y => y == x) with
  | some k => Int.ofNat k
  | none => -1

/-- JS `Array.prototype.splice(start, 1)`: a negative `start` counts back
from the end (clamped at `0`), and one element at the resolved position
is removed. -/
def jsSpliceRemoveOne {α : Type _} (l : List α) (start : Int) : List α :=
  let s : Nat := if start < 0 then (Int.ofNat l.length + start).toNat else min start.toNat l.length
  l.take s ++ l.drop (s + 1)

namespace ChainModifier

/-- `ChainModifier.remove`: `modifiers.splice(modifiers.indexOf(modifier), 1)`. -/
def remove (ms : List DataMod) (m : DataMod) : List DataMod :=
  jsSpliceRemoveOne ms (jsIndexOf ms m)

end ChainModifier

example :
    (modifyM (.chainM true [.sortM { direction := .asc, orderByColumn := "a" }, .invertM])
      [("a", [Cell.num 1, Cell.num 0])]).2 =
      .chainM true [.invertM, .sortM { direction := .asc, orderByColumn := "a" }] := by decide

example : ChainModifier.remove [.invertM] (.sortM SortModifier.defaultOptions) = [] := by decide

example : ChainModifier.remove [.invertM, .groupM {}, .invertM] .invertM =
    [.groupM {}, .invertM] := by decide

/-- C4: a two-element chain is the composition of its children in stored
order, and a chain with `reverse` set produces, on a single call, the
same table as the reversed chain without `reverse`. -/
theorem chain_composition_law (A B : DataMod) (t : DataTable) :
    (modifyM (.chainM false [A, B]) t).1 = (modifyM B (modifyM A t).1).1 ∧
    (modifyM (.chainM true [A, B]) t).1 = (modifyM (.chainM false [B, A]) t).1 := by
  constructor
  · simp [modifyM, modifyChain]
  · simp [modifyM, modifyChain, modifyChainRev]

/-- C1 (failing input): `modify` with `reverse:true` reverses the stored
modifier array in place, so the stored order changes, and a second call
on the same chain applies the children in the opposite effective order,
producing a different table. -/
theorem chain_modify_mutates_stored_order :
    (modifyM (.chainM true [.sortM { direction := .asc, orderByColumn := "a" }, .invertM])
        [("a", [Cell.num 1, Cell.num 0])]).2 =
      .chainM true [.invertM, .sortM { direction := .asc, orderByColumn := "a" }] ∧
    (modifyM (.chainM true [.sortM { direction := .asc, orderByColumn := "a" }, .invertM])
        [("a", [Cell.num 1, Cell.num 0])]).2 ≠
      .chainM true [.sortM { direction := .asc, orderByColumn := "a" }, .invertM] ∧
    (modifyM
        (modifyM (.chainM true [.sortM { direction := .asc, orderByColumn := "a" }, .invertM])
          [("a", [Cell.num 1, Cell.num 0])]).2
        [("a", [Cell.num 1, Cell.num 0])]).1 ≠
      (modifyM (.chainM true [.sortM { direction := .asc, orderByColumn := "a" }, .invertM])
        [("a", [Cell.num 1, Cell.num 0])]).1 := by
  refine ⟨by decide, by decide, by decide⟩

theorem jsSplice_nonneg {α : Type _} (l : List α) (k : Nat) (hk : k ≤ l.length) :
    jsSpliceRemoveOne l (Int.ofNat k) = l.take k ++ l.drop (k + 1) := by
  simp only [jsSpliceRemoveOne]
  rw [show Int.ofNat k = (k : Int) from rfl, show Int.ofNat l.length = (l.length : Int) from rfl]
  rw [if_neg (by omega)]
  have hmin : ((k : Int)).toNat ⊓ l.length = k := by omega
  rw [hmin]

theorem jsSplice_neg_one {α : Type _} (l : List α) :
    jsSpliceRemoveOne l (-1) = l.dropLast := by
  simp only [jsSpliceRemoveOne]
  rw [if_pos (by decide : (-1 : Int) < 0)]
  have hs : ((Int.ofNat l.length) + -1).toNat = l.length - 1 := by
    rw [show Int.ofNat l.length = (l.length : Int) from rfl]
    omega
  rw [hs, List.drop_eq_nil_of_le (by omega), List.append_nil, List.dropLast_eq_take]

theorem chain_remove_mem (ms : List DataMod) (m : DataMod) (h : m ∈ ms) :
    ChainModifier.remove ms m = ms.erase m := by
  induction ms with
  | nil => cases h
  | cons x ms ih =>
    unfold ChainModifier.remove jsIndexOf at ih ⊢
    by_cases hx : x = m
    · subst hx
      rw [List.findIdx?_cons, if_pos (by simp)]
      rw [jsSplice_nonneg _ 0 (by simp), List.erase_cons_head]
      simp
    · have hm : m ∈ ms := by
        rcases List.mem_cons.mp h with h1 | h1
        · exact absurd h1.symm hx
        · exact h1
      have hbx : (x == m) = false := by simpa using hx
      rw [List.findIdx?_cons, if_neg (by simp [hbx])]
      rcases hfi : ms.findIdx? (fun y => y == m) with _ | k
      · exfalso
        rw [List.findIdx?_eq_none_iff] at hfi
        have := hfi m hm
        simp at this
      · have hk : k < ms.length := (List.findIdx?_eq_some_iff_findIdx_eq.mp hfi).1
        rw [hfi] at ih
        have ihm := ih hm
        rw [jsSplice_nonneg ms k (Nat.le_of_lt hk)] at ihm
        rw [show (0 : Nat) + 1 = 0 + 1 from rfl, List.findIdx?_succ, hfi]
        simp only [Option.map_some']
        rw [jsSplice_nonneg (x :: ms) (k + 1) (by simp; omega)]
        rw [List.erase_cons_tail (by simp [hbx]), List.take_succ_cons, List.drop_succ_cons,
          List.cons_append, ← ihm]

theorem chain_remove_not_mem (ms : List DataMod) (m : DataMod) (h : m ∉ ms) :
    ChainModifier.remove ms m = ms.dropLast := by
  have hfi : ms.findIdx? (fun y => y == m) = none := by
    rw [List.findIdx?_eq_none_iff]
    intro x hx
    simp only [beq_eq_false_iff_ne, ne_eq]
    exact fun hh => h (hh ▸ hx)
  unfold ChainModifier.remove jsIndexOf
  rw [hfi]
  exact jsSplice_neg_one ms

/-- C9 counterexample: removing a modifier that is not in the chain does
not leave the sequence unchanged — the last modifier is removed
(`splice(-1, 1)`). -/
theorem chain_remove_absent_counterexample :
    ChainModifier.remove [DataMod.invertM] (DataMod.sortM SortModifier.defaultOptions) ≠
      [DataMod.invertM] := by decide

/-- C9 amended: `remove` deletes exactly the first occurrence when the
modifier is present, but deletes the last stored modifier when it is
absent (`indexOf` returns `-1` and `splice(-1, 1)` drops the last
element; an empty chain stays empty). -/
theorem chain_remove_amended (ms : List DataMod) (m : DataMod) :
    (m ∈ ms → ChainModifier.remove ms m = ms.erase m) ∧
    (m ∉ ms → ChainModifier.remove ms m = ms.dropLast) :=
  ⟨chain_remove_mem ms m, chain_remove_not_mem ms m⟩

/-- Witness for C9's amended theorem at concrete chains. -/
theorem chain_remove_amended_witness :
    ChainModifier.remove [DataMod.invertM, DataMod.groupM {}, DataMod.invertM]
        DataMod.invertM = [DataMod.groupM {}, DataMod.invertM] ∧
      ChainModifier.remove [DataMod.invertM] (DataMod.sortM SortModifier.defaultOptions) =
        [] :=
  ⟨((chain_remove_amended [DataMod.invertM, DataMod.groupM {}, DataMod.invertM]
      DataMod.invertM).1 (by decide)).trans (by decide),
    ((chain_remove_amended [DataMod.invertM]
      (DataMod.sortM SortModifier.defaultOptions)).2 (by decide)).trans (by decide)⟩

/-! ## Injectivity of the decimal column keys `"0"`, `"1"`, … -/

def charVal (c : Char) : Nat := c.toNat - '0'.toNat

def decimalVal (l : List Char) : Nat := l.foldl (fun a c => a * 10 + charVal c) 0

theorem charVal_digitChar_lt10 : ∀ m < 10, charVal (Nat.digitChar m) = m := by decide

theorem toDigitsCore_append (f : Nat) : ∀ (n : Nat) (acc : List Char),
    Nat.toDigitsCore 10 f n acc = Nat.toDigitsCore 10 f n [] ++ acc := by
  induction f with
  | zero => intro n acc; simp [Nat.toDigitsCore]
  | succ f ih =>
    intro n acc
    simp only [Nat.toDigitsCore]
    by_cases h : n / 10 = 0
    · simp [h]
    · rw [if_neg h, if_neg h, ih (n / 10) (Nat.digitChar (n % 10) :: acc),
        ih (n / 10) [Nat.digitChar (n % 10)]]
      simp

theorem decimalVal_append_singleton (l : List Char) (c : Char) :
    decimalVal (l ++ [c]) = decimalVal l * 10 + charVal c := by
  simp [decimalVal, List.foldl_append]

theorem decimalVal_toDigitsCore (f : Nat) : ∀ n : Nat, n < 10 ^ f →
    decimalVal (Nat.toDigitsCore 10 f n []) = n := by
  induction f with
  | zero =>
    intro n h
    have hn : n = 0 := by simpa using h
    subst hn
    simp [Nat.toDigitsCore, decimalVal]
  | succ f ih =>
    intro n h
    simp only [Nat.toDigitsCore]
    by_cases h0 : n / 10 = 0
    · have hn : n < 10 := by omega
      rw [if_pos h0]
      have hv : decimalVal [Nat.digitChar (n % 10)] = n % 10 := by
        have := charVal_digitChar_lt10 (n % 10) (Nat.mod_lt n (by decide))
        simp [decimalVal, this]
      rw [hv, Nat.mod_eq_of_lt hn]
    · rw [if_neg h0, toDigitsCore_append, decimalVal_append_singleton]
      have hdiv : n / 10 < 10 ^ f := by
        rw [Nat.div_lt_iff_lt_mul (by decide : (0:Nat) < 10)]
        calc n < 10 ^ (f + 1) := h
          _ = 10 ^ f * 10 := by rw [Nat.pow_succ]
      rw [ih (n / 10) hdiv,
        charVal_digitChar_lt10 (n % 10) (Nat.mod_lt n (by decide))]
      omega

theorem decimalVal_toString (n : Nat) : decimalVal (toString n).data = n := by
  have hlt : n < 10 ^ (n + 1) :=
    lt_of_lt_of_le (Nat.lt_pow_self (by decide) n)
      (Nat.pow_le_pow_right (by decide) (Nat.le_succ n))
  exact decimalVal_toDigitsCore (n + 1) n hlt

theorem natToString_injective (m n : Nat) (h : toString m = toString n) : m = n := by
  have hm := decimalVal_toString m
  have hn := decimalVal_toString n
  rw [h, hn] at hm
  exact hm.symm

theorem toString_ne_columnNames (i : Nat) : toString i ≠ "columnNames" := by
  intro h
  have hi := decimalVal_toString i
  rw [h] at hi
  rw [← hi] at h
  exact (by decide : toString (decimalVal "columnNames".data) ≠ "columnNames") h

/-! ## `setColumns` on a cleared table -/

theorem hasColumn_append (a b : DataTable) (c : String) :
    DataTable.hasColumn (a ++ b) c = (DataTable.hasColumn a c || DataTable.hasColumn b c) := by
  induction a with
  | nil => simp [DataTable.hasColumn]
  | cons hd tl ih => simp [DataTable.hasColumn, ih, Bool.or_assoc]

theorem setColumn_not_has (t : DataTable) (name : String) (col : List Cell)
    (h : DataTable.hasColumn t name = false) :
    DataTable.setColumn t name col = t ++ [(name, col)] := by
  unfold DataTable.setColumn
  rw [if_neg (by simp [h])]

theorem setColumns_disjoint (cols : List (String × List Cell)) :
    ∀ acc : DataTable, (∀ c ∈ cols, DataTable.hasColumn acc c.1 = false) →
    (cols.map Prod.fst).Nodup →
    DataTable.setColumns acc cols = acc ++ cols := by
  induction cols with
  | nil => intro acc _ _; simp [DataTable.setColumns]
  | cons c cs ih =>
    intro acc hdisj hnd
    rw [List.map_cons, List.nodup_cons] at hnd
    unfold DataTable.setColumns at ih ⊢
    rw [List.foldl_cons, setColumn_not_has acc c.1 c.2 (hdisj c (by simp))]
    rw [ih (acc ++ [(c.1, c.2)]) ?_ hnd.2]
    · simp
    · intro d hd
      rw [hasColumn_append]
      have h1 := hdisj d (by simp [hd])
      have h2 : DataTable.hasColumn [(c.1, c.2)] d.1 = false := by
        simp only [DataTable.hasColumn, Bool.or_false, beq_eq_false_iff_ne, ne_eq]
        intro hh
        exact hnd.1 (hh ▸ List.mem_map_of_mem Prod.fst hd)
      rw [h1, h2]
      rfl

theorem setColumns_nil_of_nodup (cols : List (String × List Cell))
    (h : (cols.map Prod.fst).Nodup) :
    DataTable.setColumns [] cols = cols := by
  rw [setColumns_disjoint cols [] (fun c _ => rfl) h]
  simp

theorem getColumn_append_single_self (xs : DataTable) (c : String) (col : List Cell)
    (h : ∀ x ∈ xs, x.1 ≠ c) :
    DataTable.getColumn (xs ++ [(c, col)]) c = some col := by
  induction xs with
  | nil => simp [DataTable.getColumn]
  | cons hd tl ih =>
    have hne : ¬ hd.1 = c := h hd (by simp)
    simp only [List.cons_append, DataTable.getColumn, if_neg hne]
    exact ih (fun x hx => h x (by simp [hx]))

theorem deleteColumnsNamed_append_single (xs : DataTable) (c : String) (col : List Cell)
    (h : ∀ x ∈ xs, x.1 ≠ c) :
    DataTable.deleteColumnsNamed (xs ++ [(c, col)]) [c] = xs := by
  unfold DataTable.deleteColumnsNamed
  rw [List.filter_append]
  have h1 : xs.filter (fun x => !([c].contains x.1)) = xs := by
    rw [List.filter_eq_self]
    intro x hx
    simp [h x hx]
  have h2 : ([(c, col)] : DataTable).filter (fun x => !([c].contains x.1)) = [] := by
    simp
  rw [h1, h2, List.append_nil]

/-- C2 counterexample: a table with one column and zero rows does not
survive a double inversion — the first inversion keeps only the
`columnNames` sentinel (there are no rows to turn into columns), and the
second inversion then restores nothing, yielding an empty table. -/
theorem invert_involution_counterexample :
    InvertModifier.modify (InvertModifier.modify [("a", ([] : List Cell))]) ≠
      [("a", ([] : List Cell))] := by decide

/-- C2 amended: for every table with unique column names, at least one
row, and no column named `columnNames`, applying `InvertModifier.modify`
twice restores the table exactly (same column names in the same order,
same cell at every position). -/
theorem invert_involution_amended (t : DataTable) (n : Nat)
    (hreg : DataTable.regular t n) (hn : DataTable.getRowCount t = n) (hpos : 0 < n)
    (hnames : (DataTable.getColumnNames t).Nodup)
    (hnc : "columnNames" ∉ DataTable.getColumnNames t) :
    InvertModifier.modify (InvertModifier.modify t) = t := by
  have ht : t ≠ [] := by
    intro hh
    subst hh
    simp [DataTable.getRowCount] at hn
    omega
  have hhc1 : DataTable.hasColumn t "columnNames" = false := by
    rcases hb : DataTable.hasColumn t "columnNames"
    · rfl
    · exact absurd ((hasColumn_iff_mem_names t _).mp hb) hnc
  have hnd1 : ((((List.range n).map (fun i => (toString i, DataTable.getRow t i))) ++
      [("columnNames", (DataTable.getColumnNames t).map Cell.str)]).map Prod.fst).Nodup := by
    rw [List.map_append, List.map_map]
    have hcomp : (Prod.fst ∘ fun i : Nat => (toString i, DataTable.getRow t i)) =
        (fun i : Nat => toString i) := rfl
    rw [hcomp, List.nodup_append]
    refine ⟨?_, by simp, ?_⟩
    · exact List.Nodup.map (fun a b h => natToString_injective a b h) (List.nodup_range n)
    · intro a ha hb
      rcases List.mem_map.mp ha with ⟨i, _, rfl⟩
      simp only [List.map_cons, List.map_nil, List.mem_singleton] at hb
      exact toString_ne_columnNames i hb
  have hinv1 : InvertModifier.modify t =
      ((List.range n).map (fun i => (toString i, DataTable.getRow t i))) ++
        [("columnNames", (DataTable.getColumnNames t).map Cell.str)] := by
    unfold InvertModifier.modify
    rw [if_neg (by simp [hhc1]), hn]
    exact setColumns_nil_of_nodup _ hnd1
  have hxs_ne : ∀ x ∈ (List.range n).map (fun i => (toString i, DataTable.getRow t i)),
      x.1 ≠ "columnNames" := by
    intro x hx
    rcases List.mem_map.mp hx with ⟨i, _, rfl⟩
    exact toString_ne_columnNames i
  have hgc2 : DataTable.getColumn
      (((List.range n).map (fun i => (toString i, DataTable.getRow t i))) ++
        [("columnNames", (DataTable.getColumnNames t).map Cell.str)]) "columnNames" =
      some ((DataTable.getColumnNames t).map Cell.str) :=
    getColumn_append_single_self _ _ _ hxs_ne
  have hdel : DataTable.deleteColumnsNamed
      (((List.range n).map (fun i => (toString i, DataTable.getRow t i))) ++
        [("columnNames", (DataTable.getColumnNames t).map Cell.str)]) ["columnNames"] =
      (List.range n).map (fun i => (toString i, DataTable.getRow t i)) :=
    deleteColumnsNamed_append_single _ _ _ hxs_ne
  have hhc2 : DataTable.hasColumn
      (((List.range n).map (fun i => (toString i, DataTable.getRow t i))) ++
        [("columnNames", (DataTable.getColumnNames t).map Cell.str)]) "columnNames" = true :=
    hasColumn_of_getColumn_eq_some _ _ _ hgc2
  have hrc2 : DataTable.getRowCount
      ((List.range n).map (fun i => (toString i, DataTable.getRow t i))) = t.length := by
    apply getRowCount_const
    · intro c hc
      rcases List.mem_map.mp hc with ⟨i, _, rfl⟩
      exact getRow_length t i
    · intro hh
      have := congrArg List.length hh
      simp at this
      omega
  have hcolseq : (List.range t.length).map (fun i =>
      ((((DataTable.getColumnNames t).map Cell.str).map cellToString).getD i "undefined",
        DataTable.getRow ((List.range n).map (fun j => (toString j, DataTable.getRow t j))) i))
      = t := by
    apply List.ext_getElem
    · simp
    · intro i h1 h2
      rw [List.getElem_map, List.getElem_range]
      have hname : ((((DataTable.getColumnNames t).map Cell.str).map cellToString).getD i
          "undefined") = t[i].1 := by
        rw [List.map_map]
        have hcomp : (cellToString ∘ Cell.str) = id := rfl
        rw [hcomp, List.map_id]
        unfold DataTable.getColumnNames
        rw [List.getD_eq_getElem?_getD, List.getElem?_map, List.getElem?_eq_getElem h2]
        simp
      have hrow : DataTable.getRow
          ((List.range n).map (fun j => (toString j, DataTable.getRow t j))) i = t[i].2 := by
        unfold DataTable.getRow
        rw [List.map_map]
        have hcomp : ((fun c : String × List Cell => c.2.getD i Cell.undef) ∘
            (fun j : Nat => (toString j,
              List.map (fun c : String × List Cell => c.2.getD j Cell.undef) t))) =
            (fun j : Nat =>
              (List.map (fun c : String × List Cell => c.2.getD j Cell.undef) t).getD i
                Cell.undef) := rfl
        rw [hcomp]
        have heq : ∀ j ∈ List.range n,
            (List.map (fun c : String × List Cell => c.2.getD j Cell.undef) t).getD i
              Cell.undef = t[i].2.getD j Cell.undef := by
          intro j _
          exact getRow_getD t j i h2
        rw [List.map_congr_left heq]
        exact map_range_getD t[i].2 Cell.undef n (hreg t[i] (List.getElem_mem h2))
      rw [hname, hrow]
  rw [hinv1]
  unfold InvertModifier.modify
  rw [if_pos hhc2]
  simp only [hgc2, hdel, Option.getD_some, hrc2]
  rw [hcolseq]
  exact setColumns_nil_of_nodup t hnames

/-- Witness for C2's amended theorem at a concrete one-row table. -/
theorem invert_involution_amended_witness :
    InvertModifier.modify (InvertModifier.modify
        [("a", [Cell.num 1]), ("b", [Cell.str "x"])]) =
      [("a", [Cell.num 1]), ("b", [Cell.str "x"])] :=
  invert_involution_amended [("a", [Cell.num 1]), ("b", [Cell.str "x"])] 1
    (by
      intro c hc
      rcases List.mem_cons.mp hc with rfl | hc2
      · rfl
      · rcases List.mem_singleton.mp hc2 with rfl
        rfl)
    rfl (by decide) (by decide) (by decide)

/-! ## The group partition law: supporting definitions -/

/-- First-seen deduplication (the order in which `valueGroups` collects
distinct values). -/
def firstSeenDedup (l : List Cell) : List Cell :=
  l.foldl (fun acc v => if acc.contains v then acc else acc ++ [v]) []

/-- The table holding exactly the rows of `t` at the given indices, in
that order (same column names, cells sliced positionally). -/
def subTableFor (t : DataTable) (idxs : List Nat) : DataTable :=
  t.map (fun c => (c.1, idxs.map (fun i => c.2.getD i Cell.undef)))

def groupValueColumn (o : GroupOptions) (t : DataTable) : List Cell :=
  (DataTable.getColumn t (GroupModifier.effectiveColumn o t)).getD []

def groupRetainedValuesUpTo (o : GroupOptions) (vc : List Cell) (m : Nat) : List Cell :=
  ((List.range m).filter (fun i => GroupModifier.retained o (vc.getD i Cell.undef))).map
    (fun i => vc.getD i Cell.undef)

def groupMatchingIdxsUpTo (o : GroupOptions) (vc : List Cell) (v : Cell) (m : Nat) :
    List Nat :=
  (List.range m).filter
    (fun i => GroupModifier.retained o (vc.getD i Cell.undef) && (vc.getD i Cell.undef == v))

/-- The retained grouping values, in row order (with multiplicity). -/
def groupRetainedValues (o : GroupOptions) (t : DataTable) : List Cell :=
  groupRetainedValuesUpTo o (groupValueColumn o t) (groupValueColumn o t).length

/-- The indices of the rows carrying value `v`, in original row order. -/
def groupMatchingIdxs (o : GroupOptions) (t : DataTable) (v : Cell) : List Nat :=
  groupMatchingIdxsUpTo o (groupValueColumn o t) v (groupValueColumn o t).length

theorem firstSeenDedup_append_singleton (l : List Cell) (v : Cell) :
    firstSeenDedup (l ++ [v]) =
      if (firstSeenDedup l).contains v then firstSeenDedup l
      else firstSeenDedup l ++ [v] := by
  unfold firstSeenDedup
  rw [List.foldl_append]
  rfl

theorem mem_firstSeenDedup (l : List Cell) (v : Cell) :
    v ∈ firstSeenDedup l ↔ v ∈ l := by
  induction l using List.reverseRecOn generalizing v with
  | nil => simp [firstSeenDedup]
  | append_singleton l x ih =>
    rw [firstSeenDedup_append_singleton]
    by_cases hc : (firstSeenDedup l).contains x = true
    · have hx : x ∈ l := (ih x).mp (List.elem_iff.mp hc)
      rw [if_pos hc]
      rw [List.mem_append, List.mem_singleton, ih v]
      constructor
      · exact Or.inl
      · rintro (hv | rfl)
        · exact hv
        · exact hx
    · rw [if_neg hc]
      simp [ih]

theorem nodup_firstSeenDedup (l : List Cell) : (firstSeenDedup l).Nodup := by
  induction l using List.reverseRecOn with
  | nil => simp [firstSeenDedup]
  | append_singleton l x ih =>
    rw [firstSeenDedup_append_singleton]
    by_cases hc : (firstSeenDedup l).contains x = true
    · rw [if_pos hc]
      exact ih
    · rw [if_neg hc]
      rw [List.nodup_append]
      refine ⟨ih, by simp, ?_⟩
      intro a ha hb
      rw [List.mem_singleton] at hb
      subst hb
      exact hc (List.elem_iff.mpr ha)

theorem appendRowArray_subTableFor (t : DataTable) (idxs : List Nat) (i : Nat) :
    DataTable.appendRowArray (subTableFor t idxs) (DataTable.getRow t i) =
      subTableFor t (idxs ++ [i]) := by
  unfold DataTable.appendRowArray subTableFor
  apply List.ext_getElem
  · simp
  · intro k h1 h2
    have hk : k < t.length := by simpa using h2
    rw [List.getElem_mapIdx, List.getElem_map, List.getElem_map]
    simp only [List.map_append, List.map_cons, List.map_nil]
    have hcell : (DataTable.getRow t i).getD k Cell.undef = t[k].2.getD i Cell.undef :=
      getRow_getD t i k hk
    rw [hcell]

theorem ofRowObject_eq_subTableFor (t : DataTable) (i : Nat) :
    DataTable.ofRowObject (DataTable.getRowObject t i) = subTableFor t [i] := by
  unfold DataTable.ofRowObject DataTable.getRowObject subTableFor
  rw [List.map_map]
  rfl

theorem groupMatchingIdxsUpTo_nil_iff (o : GroupOptions) (vc : List Cell) (v : Cell)
    (m : Nat) :
    groupMatchingIdxsUpTo o vc v m = [] ↔ v ∉ groupRetainedValuesUpTo o vc m := by
  unfold groupMatchingIdxsUpTo groupRetainedValuesUpTo
  rw [List.eq_nil_iff_forall_not_mem]
  constructor
  · intro h hv
    rcases List.mem_map.mp hv with ⟨i, hi, hiv⟩
    rcases List.mem_filter.mp hi with ⟨hirange, hiret⟩
    refine h i (List.mem_filter.mpr ⟨hirange, ?_⟩)
    simp only [Bool.and_eq_true, beq_iff_eq]
    exact ⟨hiret, hiv⟩
  · intro h i hi
    rcases List.mem_filter.mp hi with ⟨hirange, hcond⟩
    simp only [Bool.and_eq_true, beq_iff_eq] at hcond
    exact h (List.mem_map.mpr
      ⟨i, List.mem_filter.mpr ⟨hirange, hcond.1⟩, hcond.2⟩)

theorem groupStep_eq (o : GroupOptions) (t : DataTable) (gc : String)
    (vc : List Cell) (gs : List (String × DataTable × Cell)) (i : Nat) :
    GroupModifier.groupStep o t gc vc gs i =
      if GroupModifier.retained o (vc.getD i Cell.undef) then
        match gs.findIdx? (fun g => g.2.2 == vc.getD i Cell.undef) with
        | none =>
            gs ++ [(gc, DataTable.ofRowObject (DataTable.getRowObject t i),
              vc.getD i Cell.undef)]
        | some vi =>
            gs.set vi ((gs.getD vi ("", [], Cell.undef)).1,
              DataTable.appendRowArray (gs.getD vi ("", [], Cell.undef)).2.1
                (DataTable.getRow t i),
              (gs.getD vi ("", [], Cell.undef)).2.2)
      else gs := rfl

theorem groupStep_skip (o : GroupOptions) (t : DataTable) (gc : String)
    (vc : List Cell) (gs : List (String × DataTable × Cell)) (i : Nat)
    (hret : GroupModifier.retained o (vc.getD i Cell.undef) = false) :
    GroupModifier.groupStep o t gc vc gs i = gs := by
  rw [groupStep_eq, if_neg (by rw [hret]; exact Bool.false_ne_true)]

theorem groupStep_notFound (o : GroupOptions) (t : DataTable) (gc : String)
    (vc : List Cell) (gs : List (String × DataTable × Cell)) (i : Nat)
    (hret : GroupModifier.retained o (vc.getD i Cell.undef) = true)
    (hfi : gs.findIdx? (fun g => g.2.2 == vc.getD i Cell.undef) = none) :
    GroupModifier.groupStep o t gc vc gs i =
      gs ++ [(gc, DataTable.ofRowObject (DataTable.getRowObject t i),
        vc.getD i Cell.undef)] := by
  rw [groupStep_eq, if_pos hret, hfi]

theorem groupStep_found (o : GroupOptions) (t : DataTable) (gc : String)
    (vc : List Cell) (gs : List (String × DataTable × Cell)) (i p : Nat)
    (hret : GroupModifier.retained o (vc.getD i Cell.undef) = true)
    (hfi : gs.findIdx? (fun g => g.2.2 == vc.getD i Cell.undef) = some p) :
    GroupModifier.groupStep o t gc vc gs i =
      gs.set p ((gs.getD p ("", [], Cell.undef)).1,
        DataTable.appendRowArray (gs.getD p ("", [], Cell.undef)).2.1
          (DataTable.getRow t i),
        (gs.getD p ("", [], Cell.undef)).2.2) := by
  rw [groupStep_eq, if_pos hret, hfi]


theorem groups_aux (o : GroupOptions) (t : DataTable) (gc : String) (vc : List Cell)
    (m : Nat) :
    (List.range m).foldl (GroupModifier.groupStep o t gc vc) [] =
      (firstSeenDedup (groupRetainedValuesUpTo o vc m)).map
        (fun v => (gc, subTableFor t (groupMatchingIdxsUpTo o vc v m), v)) := by
  induction m with
  | zero => rfl
  | succ m ih =>
    rw [List.range_succ, List.foldl_append, ih, List.foldl_cons, List.foldl_nil]
    by_cases hret : GroupModifier.retained o (vc.getD m Cell.undef) = true
    · have hrv : groupRetainedValuesUpTo o vc (m + 1) =
          groupRetainedValuesUpTo o vc m ++ [vc.getD m Cell.undef] := by
        unfold groupRetainedValuesUpTo
        rw [List.range_succ, List.filter_append, List.map_append,
          @List.filter_cons_of_pos _
            (fun i => GroupModifier.retained o (vc.getD i Cell.undef)) m [] hret,
          List.filter_nil]
        rfl
      have hmi_ne : ∀ v : Cell, vc.getD m Cell.undef ≠ v →
          groupMatchingIdxsUpTo o vc v (m + 1) = groupMatchingIdxsUpTo o vc v m := by
        intro v hv
        unfold groupMatchingIdxsUpTo
        rw [List.range_succ, List.filter_append,
          @List.filter_cons_of_neg _
            (fun i => GroupModifier.retained o (vc.getD i Cell.undef) &&
              (vc.getD i Cell.undef == v)) m []
            (by
              intro hc
              simp only [Bool.and_eq_true, beq_iff_eq] at hc
              exact hv hc.2),
          List.filter_nil, List.append_nil]
      have hmi_eq : groupMatchingIdxsUpTo o vc (vc.getD m Cell.undef) (m + 1) =
          groupMatchingIdxsUpTo o vc (vc.getD m Cell.undef) m ++ [m] := by
        unfold groupMatchingIdxsUpTo
        rw [List.range_succ, List.filter_append,
          @List.filter_cons_of_pos _
            (fun i => GroupModifier.retained o (vc.getD i Cell.undef) &&
              (vc.getD i Cell.undef == vc.getD m Cell.undef)) m []
            (by
              simp only [Bool.and_eq_true]
              exact ⟨hret, beq_self_eq_true _⟩),
          List.filter_nil]
      rw [hrv, firstSeenDedup_append_singleton]
      by_cases hmem : vc.getD m Cell.undef ∈ firstSeenDedup (groupRetainedValuesUpTo o vc m)
      · rw [if_pos (List.elem_iff.mpr hmem)]
        rcases hfi : (firstSeenDedup (groupRetainedValuesUpTo o vc m)).findIdx?
            (fun v => v == vc.getD m Cell.undef) with _ | p
        · exact absurd (by simp : ((vc.getD m Cell.undef ==
            vc.getD m Cell.undef) = true))
            (by simpa using List.findIdx?_eq_none_iff.mp hfi _ hmem)
        · rcases List.findIdx?_eq_some_iff_getElem.mp hfi with ⟨hp, hpv, hmin⟩
          have hpval : (firstSeenDedup (groupRetainedValuesUpTo o vc m))[p] =
              vc.getD m Cell.undef := beq_iff_eq.mp hpv
          have hfi' : ((firstSeenDedup (groupRetainedValuesUpTo o vc m)).map
              (fun v => (gc, subTableFor t (groupMatchingIdxsUpTo o vc v m), v))).findIdx?
              (fun g => g.2.2 == vc.getD m Cell.undef) = some p := by
            rw [List.findIdx?_map]
            exact hfi
          rw [groupStep_found o t gc vc _ m p hret hfi']
          have hplen : p < ((firstSeenDedup (groupRetainedValuesUpTo o vc m)).map
              (fun v => (gc, subTableFor t (groupMatchingIdxsUpTo o vc v m), v))).length := by
            simpa using hp
          have hgd1 : (((firstSeenDedup (groupRetainedValuesUpTo o vc m)).map
              (fun v => (gc, subTableFor t (groupMatchingIdxsUpTo o vc v m), v))).getD p
                ("", [], Cell.undef)).1 = gc := by
            rw [List.getD_eq_getElem _ _ hplen, List.getElem_map]
          have hgd2 : (((firstSeenDedup (groupRetainedValuesUpTo o vc m)).map
              (fun v => (gc, subTableFor t (groupMatchingIdxsUpTo o vc v m), v))).getD p
                ("", [], Cell.undef)).2.1 =
              subTableFor t (groupMatchingIdxsUpTo o vc (vc.getD m Cell.undef) m) := by
            rw [List.getD_eq_getElem _ _ hplen, List.getElem_map, ← hpval]
          have hgd3 : (((firstSeenDedup (groupRetainedValuesUpTo o vc m)).map
              (fun v => (gc, subTableFor t (groupMatchingIdxsUpTo o vc v m), v))).getD p
                ("", [], Cell.undef)).2.2 = vc.getD m Cell.undef := by
            rw [List.getD_eq_getElem _ _ hplen, List.getElem_map, ← hpval]
          rw [hgd1, hgd2, hgd3, appendRowArray_subTableFor, ← hmi_eq]
          apply List.ext_getElem
          · simp
          · intro q hq1 hq2
            have hqd : q < (firstSeenDedup (groupRetainedValuesUpTo o vc m)).length := by
              simpa using hq2
            rw [List.getElem_set]
            by_cases hpq : p = q
            · subst hpq
              rw [if_pos rfl, List.getElem_map, hpval]
            · rw [if_neg hpq, List.getElem_map, List.getElem_map]
              have hne : vc.getD m Cell.undef ≠
                  (firstSeenDedup (groupRetainedValuesUpTo o vc m))[q] := by
                intro heq
                exact hpq (((nodup_firstSeenDedup _).getElem_inj_iff).mp
                  (hpval.trans heq))
              simp only [hmi_ne _ hne]
      · rw [if_neg (fun hc => hmem (List.elem_iff.mp hc))]
        have hfi' : ((firstSeenDedup (groupRetainedValuesUpTo o vc m)).map
            (fun v => (gc, subTableFor t (groupMatchingIdxsUpTo o vc v m), v))).findIdx?
            (fun g => g.2.2 == vc.getD m Cell.undef) = none := by
          rw [List.findIdx?_map]
          apply List.findIdx?_eq_none_iff.mpr
          intro v hv
          have hne : v ≠ vc.getD m Cell.undef := fun h => hmem (h ▸ hv)
          exact beq_eq_false_iff_ne.mpr hne
        rw [groupStep_notFound o t gc vc _ m hret hfi', List.map_append]
        congr 1
        · apply List.map_congr_left
          intro v hv
          have hne : vc.getD m Cell.undef ≠ v := fun h => hmem (h ▸ hv)
          rw [hmi_ne _ hne]
        · have hnil : groupMatchingIdxsUpTo o vc (vc.getD m Cell.undef) m = [] :=
            (groupMatchingIdxsUpTo_nil_iff o vc _ m).mpr
              (fun h => hmem ((mem_firstSeenDedup _ _).mpr h))
          rw [List.map_cons, List.map_nil, hmi_eq, hnil, List.nil_append,
            ofRowObject_eq_subTableFor]
    · have hret' : GroupModifier.retained o (vc.getD m Cell.undef) = false :=
        Bool.eq_false_iff.mpr hret
      have hrv : groupRetainedValuesUpTo o vc (m + 1) =
          groupRetainedValuesUpTo o vc m := by
        unfold groupRetainedValuesUpTo
        rw [List.range_succ, List.filter_append, List.map_append,
          @List.filter_cons_of_neg _
            (fun i => GroupModifier.retained o (vc.getD i Cell.undef)) m [] hret,
          List.filter_nil, List.map_nil, List.append_nil]
      have hmi : ∀ v : Cell,
          groupMatchingIdxsUpTo o vc v (m + 1) = groupMatchingIdxsUpTo o vc v m := by
        intro v
        unfold groupMatchingIdxsUpTo
        rw [List.range_succ, List.filter_append,
          @List.filter_cons_of_neg _
            (fun i => GroupModifier.retained o (vc.getD i Cell.undef) &&
              (vc.getD i Cell.undef == v)) m []
            (by
              intro hc
              simp only [Bool.and_eq_true] at hc
              exact hret hc.1),
          List.filter_nil, List.append_nil]
      rw [groupStep_skip o t gc vc _ m hret', hrv]
      apply List.map_congr_left
      intro v _
      rw [hmi v]

theorem groups_eq (o : GroupOptions) (t : DataTable) :
    GroupModifier.groups o t =
      (firstSeenDedup (groupRetainedValues o t)).map
        (fun v => (GroupModifier.effectiveColumn o t,
          subTableFor t (groupMatchingIdxs o t v), v)) :=
  groups_aux o t (GroupModifier.effectiveColumn o t) (groupValueColumn o t)
    (groupValueColumn o t).length

theorem tableRows_subTableFor (t : DataTable) (idxs : List Nat) (ht : t ≠ []) :
    DataTable.tableRows (subTableFor t idxs) = idxs.map (DataTable.getRow t) := by
  have hsub_ne : subTableFor t idxs ≠ [] := by
    unfold subTableFor
    intro h
    exact ht (List.map_eq_nil_iff.mp h)
  have hcount : DataTable.getRowCount (subTableFor t idxs) = idxs.length := by
    apply getRowCount_const _ _ _ hsub_ne
    intro c hc
    unfold subTableFor at hc
    rcases List.mem_map.mp hc with ⟨c0, _, rfl⟩
    simp
  unfold DataTable.tableRows
  rw [hcount]
  apply List.ext_getElem
  · simp
  · intro j hj1 hj2
    have hji : j < idxs.length := by simpa using hj2
    rw [List.getElem_map, List.getElem_map, List.getElem_range]
    unfold DataTable.getRow subTableFor
    rw [List.map_map]
    apply List.map_congr_left
    intro c hc
    show (idxs.map (fun i => c.2.getD i Cell.undef)).getD j Cell.undef =
      c.2.getD idxs[j] Cell.undef
    have hjm : j < (idxs.map (fun i => c.2.getD i Cell.undef)).length := by
      simpa using hji
    rw [List.getD_eq_getElem _ _ hjm, List.getElem_map]

theorem retained_of_mem_groupRetainedValues (o : GroupOptions) (t : DataTable)
    (v : Cell) (hv : v ∈ groupRetainedValues o t) :
    GroupModifier.retained o v = true := by
  unfold groupRetainedValues groupRetainedValuesUpTo at hv
  rcases List.mem_map.mp hv with ⟨i, hi, rfl⟩
  exact (List.mem_filter.mp hi).2

/-- C6: for every table and GroupModifier configuration, the modified
table has exactly the columns `groupBy`/`table`/`value`; its rows are in
bijection with the distinct retained grouping values in first-seen order
(`value` column = first-seen deduplication of the retained values, without
duplicates, covering exactly the retained values); every group is
non-empty and its subtable holds exactly the rows carrying that value, in
original row order; and a row index belongs to a group exactly when its
value is retained (not `undefined`, not a nested table, not in
`invalidValues`, present in `validValues` when set) and equals the
group's value. -/
theorem group_partition_law (o : GroupOptions) (t : DataTable) :
    DataTable.getColumnNames (GroupModifier.modify o t) = ["groupBy", "table", "value"] ∧
    GroupModifier.modify o t = [
      ("groupBy", (firstSeenDedup (groupRetainedValues o t)).map
        (fun _ => Cell.str (GroupModifier.effectiveColumn o t))),
      ("table", (firstSeenDedup (groupRetainedValues o t)).map
        (fun v => Cell.table (subTableFor t (groupMatchingIdxs o t v)))),
      ("value", firstSeenDedup (groupRetainedValues o t))] ∧
    (firstSeenDedup (groupRetainedValues o t)).Nodup ∧
    (∀ v : Cell, v ∈ firstSeenDedup (groupRetainedValues o t) ↔
      v ∈ groupRetainedValues o t) ∧
    (∀ v ∈ firstSeenDedup (groupRetainedValues o t),
      GroupModifier.retained o v = true ∧
      groupMatchingIdxs o t v ≠ [] ∧
      DataTable.tableRows (subTableFor t (groupMatchingIdxs o t v)) =
        (groupMatchingIdxs o t v).map (DataTable.getRow t)) ∧
    (∀ v : Cell, ∀ i ∈ groupMatchingIdxs o t v,
      GroupModifier.retained o ((groupValueColumn o t).getD i Cell.undef) = true ∧
      (groupValueColumn o t).getD i Cell.undef = v) ∧
    (∀ i : Nat, i < (groupValueColumn o t).length →
      GroupModifier.retained o ((groupValueColumn o t).getD i Cell.undef) = true →
      i ∈ groupMatchingIdxs o t ((groupValueColumn o t).getD i Cell.undef)) := by
  refine ⟨rfl, ?_, nodup_firstSeenDedup _, fun v => mem_firstSeenDedup _ v, ?_, ?_, ?_⟩
  · show [("groupBy", (GroupModifier.groups o t).map (fun g => Cell.str g.1)),
      ("table", (GroupModifier.groups o t).map (fun g => Cell.table g.2.1)),
      ("value", (GroupModifier.groups o t).map (fun g => g.2.2))] = _
    rw [groups_eq o t]
    simp only [List.map_map]
    have hid : List.map ((fun g : String × DataTable × Cell => g.2.2) ∘
        (fun v => (GroupModifier.effectiveColumn o t,
          subTableFor t (groupMatchingIdxs o t v), v)))
        (firstSeenDedup (groupRetainedValues o t)) =
        firstSeenDedup (groupRetainedValues o t) := by
      show List.map (fun v => v) (firstSeenDedup (groupRetainedValues o t)) = _
      exact List.map_id' _
    rw [hid]
    rfl
  · intro v hv
    refine ⟨retained_of_mem_groupRetainedValues o t v ((mem_firstSeenDedup _ v).mp hv),
      ?_, ?_⟩
    · intro hnil
      exact (groupMatchingIdxsUpTo_nil_iff o (groupValueColumn o t) v
        (groupValueColumn o t).length).mp hnil ((mem_firstSeenDedup _ v).mp hv)
    · by_cases ht : t = []
      · subst ht
        exact absurd ((mem_firstSeenDedup _ v).mp hv) (List.not_mem_nil v)
      · exact tableRows_subTableFor t _ ht
  · intro v i hi
    unfold groupMatchingIdxs groupMatchingIdxsUpTo at hi
    have hcond := (List.mem_filter.mp hi).2
    simp only [Bool.and_eq_true, beq_iff_eq] at hcond
    exact hcond
  · intro i hi hret
    unfold groupMatchingIdxs groupMatchingIdxsUpTo
    refine List.mem_filter.mpr ⟨List.mem_range.mpr hi, ?_⟩
    simp only [Bool.and_eq_true]
    exact ⟨hret, beq_self_eq_true _⟩

/-- Witness for C6: grouping the column `['a','b','a']` yields the groups
`'a'` (rows 0 and 2) and `'b'` (row 1), in first-seen order, and the
`'a'` subtable holds exactly those two original rows. -/
theorem group_partition_law_witness :
    (Cell.str "a") ∈ firstSeenDedup (groupRetainedValues {}
      [("g", [Cell.str "a", Cell.str "b", Cell.str "a"]),
        ("v", [Cell.num 1, Cell.num 2, Cell.num 3])]) ∧
    DataTable.tableRows (subTableFor
        [("g", [Cell.str "a", Cell.str "b", Cell.str "a"]),
          ("v", [Cell.num 1, Cell.num 2, Cell.num 3])]
        (groupMatchingIdxs {}
          [("g", [Cell.str "a", Cell.str "b", Cell.str "a"]),
            ("v", [Cell.num 1, Cell.num 2, Cell.num 3])] (Cell.str "a"))) =
      (groupMatchingIdxs {}
          [("g", [Cell.str "a", Cell.str "b", Cell.str "a"]),
            ("v", [Cell.num 1, Cell.num 2, Cell.num 3])] (Cell.str "a")).map
        (DataTable.getRow
          [("g", [Cell.str "a", Cell.str "b", Cell.str "a"]),
            ("v", [Cell.num 1, Cell.num 2, Cell.num 3])]) := by
  refine ⟨by decide, ?_⟩
  exact ((group_partition_law {}
    [("g", [Cell.str "a", Cell.str "b", Cell.str "a"]),
      ("v", [Cell.num 1, Cell.num 2, Cell.num 3])]).2.2.2.2.1
    (Cell.str "a") (by decide)).2.2

/-! ## JSON serialization of modifiers

`toJSON` returns `{$class, options}` per class (Chain additionally nests
the children's JSONs); deserialization goes through the `DataJSON`
registry, which looks the discriminator up among the classes registered
via `DataJSON.addClass`.  `RangeModifier`, `GroupModifier`,
`InvertModifier`, `ChainModifier` and `SeriesPointsModifier` all register
themselves and define `fromJSON(json) = new X(json.options)`;
`SortModifier` defines `toJSON` but has no `fromJSON` and never calls
`DataJSON.addClass`.  Options are fully populated records, so the
constructor's merge with the defaults reproduces them exactly. -/

/-- The class JSONs produced by the modifiers' `toJSON` methods, keyed by
their `$class` discriminator. -/
inductive CJSON where
  | sortJ (options : SortOptions)
  | rangeJ (options : RangeOptions)
  | groupJ (options : GroupOptions)
  | invertJ
  | seriesPointsJ (aliasMap : List (String × String))
  | chainJ (reverse : Bool) (modifiers : List CJSON)

/-- The modifier instances of the serializable kinds, with their
(fully merged) options. -/
inductive MInst where
  | sortI (options : SortOptions)
  | rangeI (options : RangeOptions)
  | groupI (options : GroupOptions)
  | invertI
  | seriesPointsI (aliasMap : List (String × String))
  | chainI (reverse : Bool) (modifiers : List MInst)

mutual

/-- Each class's `toJSON`: the `$class` discriminator plus a copy of the
options; `ChainModifier.toJSON` pushes every child's `toJSON`. -/
def MInst.toJSON : MInst → CJSON
  | .sortI o => .sortJ o
  | .rangeI o => .rangeJ o
  | .groupI o => .groupJ o
  | .invertI => .invertJ
  | .seriesPointsI a => .seriesPointsJ a
  | .chainI r ms => .chainJ r (MInst.toJSONList ms)

def MInst.toJSONList : List MInst → List CJSON
  | [] => []
  | m :: ms => MInst.toJSON m :: MInst.toJSONList ms

end

namespace DataJSON

mutual

/-- Modelled from the spec (registry lookup, unknown discriminators
silently omitted): dispatch on the `$class` discriminator over the
registered classes.  The registered branches embed each class's static
`fromJSON` (`new X(json.options)`; `ChainModifier.fromJSON` converts the
nested JSONs and keeps only those that produced a modifier);
`SortModifier` is never registered, so its JSON yields nothing. -/
def fromJSON : CJSON → Option MInst
  | .sortJ _ => none
  | .rangeJ o => some (.rangeI o)
  | .groupJ o => some (.groupI o)
  | .invertJ => some .invertI
  | .seriesPointsJ a => some (.seriesPointsI a)
  | .chainJ r ms => some (.chainI r (fromJSONList ms))

/-- `ChainModifier.fromJSON`'s loop: convert each nested JSON and push
the result only `if (modifier)`. -/
def fromJSONList : List CJSON → List MInst
  | [] => []
  | j :: js =>
    match fromJSON j with
    | some m => m :: fromJSONList js
    | none => fromJSONList js

end

end DataJSON

mutual

/-- No `SortModifier` occurs in the instance, at any chain depth. -/
def noSortM : MInst → Bool
  | .sortI _ => false
  | .chainI _ ms => noSortMList ms
  | _ => true

def noSortMList : List MInst → Bool
  | [] => true
  | m :: ms => noSortM m && noSortMList ms

end

mutual

theorem roundTrip_aux : ∀ x : MInst, noSortM x = true →
    DataJSON.fromJSON (MInst.toJSON x) = some x
  | .sortI o => by intro h; simp [noSortM] at h
  | .rangeI o => fun _ => rfl
  | .groupI o => fun _ => rfl
  | .invertI => fun _ => rfl
  | .seriesPointsI a => fun _ => rfl
  | .chainI r ms => fun h => by
      show some (MInst.chainI r (DataJSON.fromJSONList (MInst.toJSONList ms))) =
        some (MInst.chainI r ms)
      rw [roundTripList_aux ms h]

theorem roundTripList_aux : ∀ ms : List MInst, noSortMList ms = true →
    DataJSON.fromJSONList (MInst.toJSONList ms) = ms
  | [] => fun _ => rfl
  | m :: ms => fun h => by
      have h' : noSortM m = true ∧ noSortMList ms = true := by
        simpa [noSortMList, Bool.and_eq_true] using h
      show DataJSON.fromJSONList (MInst.toJSON m :: MInst.toJSONList ms) = m :: ms
      unfold DataJSON.fromJSONList
      rw [roundTrip_aux m h'.1, roundTripList_aux ms h'.2]

end

/-- C7: the round trip `fromJSON (x.toJSON())` fails for the Sort kind —
`SortModifier` is never registered with `DataJSON`, so deserializing its
own `toJSON` output yields nothing, and a chain serialized with a Sort
child silently drops it on deserialization.  For every instance built
from the registered kinds (Range, Group, Invert, SeriesPoints, Chain, at
any nesting depth) the round trip succeeds and reproduces the instance,
hence also its JSON. -/
theorem json_round_trip :
    (∀ o : SortOptions, DataJSON.fromJSON (MInst.toJSON (MInst.sortI o)) = none) ∧
    (∀ (r : Bool) (o : SortOptions) (ms : List MInst), noSortMList ms = true →
      DataJSON.fromJSON (MInst.toJSON (MInst.chainI r (MInst.sortI o :: ms))) =
        some (MInst.chainI r ms)) ∧
    (∀ x : MInst, noSortM x = true →
      DataJSON.fromJSON (MInst.toJSON x) = some x ∧
      (DataJSON.fromJSON (MInst.toJSON x)).map MInst.toJSON =
        some (MInst.toJSON x)) := by
  refine ⟨fun o => rfl, ?_, ?_⟩
  · intro r o ms h
    show some (MInst.chainI r (DataJSON.fromJSONList
      (MInst.toJSON (MInst.sortI o) :: MInst.toJSONList ms))) = _
    unfold DataJSON.fromJSONList
    show some (MInst.chainI r (DataJSON.fromJSONList (MInst.toJSONList ms))) = _
    rw [roundTripList_aux ms h]
  · intro x h
    refine ⟨roundTrip_aux x h, ?_⟩
    rw [roundTrip_aux x h]
    rfl

/-- Witness for C7: a default-options Sort instance fails to
deserialize; the chain `[Sort, Invert, Group]` loses its Sort child; the
sort-free chain `[Invert, Group]` round-trips exactly. -/
theorem json_round_trip_witness :
    DataJSON.fromJSON (MInst.toJSON (MInst.sortI {})) = none ∧
    DataJSON.fromJSON (MInst.toJSON (MInst.chainI false
        [MInst.sortI {}, MInst.invertI, MInst.groupI {}])) =
      some (MInst.chainI false [MInst.invertI, MInst.groupI {}]) ∧
    DataJSON.fromJSON (MInst.toJSON (MInst.chainI false
        [MInst.invertI, MInst.groupI {}])) =
      some (MInst.chainI false [MInst.invertI, MInst.groupI {}]) := by
  refine ⟨json_round_trip.1 {}, ?_, ?_⟩
  · exact json_round_trip.2.1 false {} [MInst.invertI, MInst.groupI {}] rfl
  · exact (json_round_trip.2.2 (MInst.chainI false
      [MInst.invertI, MInst.groupI {}]) rfl).1

/-! ## The sort specification: comparator order properties -/

theorem optLt_asymm (x y : Option Int) (h : optLt x y = true) : optLt y x = false := by
  cases x <;> cases y <;> simp [optLt] at h ⊢ <;> omega

theorem charListLt_asymm : ∀ xs ys : List Char,
    charListLt xs ys = true → charListLt ys xs = false
  | [], [] => by simp [charListLt]
  | [], _ :: _ => by simp [charListLt]
  | _ :: _, [] => by simp [charListLt]
  | x :: xs, y :: ys => by
    simp only [charListLt, Bool.or_eq_true, Bool.and_eq_true, decide_eq_true_eq,
      beq_iff_eq, Bool.or_eq_false_iff, Bool.and_eq_false_iff,
      decide_eq_false_iff_not]
    rintro (hlt | ⟨rfl, hrec⟩)
    · exact ⟨lt_asymm hlt, Or.inl (beq_eq_false_iff_ne.mpr (ne_of_lt hlt).symm)⟩
    · exact ⟨lt_irrefl x, Or.inr (charListLt_asymm xs ys hrec)⟩

theorem jsLt_asymm (a b : Cell) (h : jsLt a b = true) : jsLt b a = false := by
  cases a <;> cases b <;> simp only [jsLt] at h ⊢ <;>
    first
      | exact charListLt_asymm _ _ h
      | exact optLt_asymm _ _ h

theorem ascending_zero_symm (x y : Cell) (h : SortModifier.ascending x y = 0) :
    SortModifier.ascending y x = 0 := by
  unfold SortModifier.ascending at h ⊢
  by_cases h1 : jsLt (SortModifier.jsOrZero x) (SortModifier.jsOrZero y) <;>
    by_cases h2 : jsLt (SortModifier.jsOrZero y) (SortModifier.jsOrZero x) <;>
    simp [h1, h2] at h ⊢

theorem ascending_skew (x y : Cell) (h : SortModifier.ascending x y < 0) :
    0 < SortModifier.ascending y x := by
  unfold SortModifier.ascending at h ⊢
  by_cases h1 : jsLt (SortModifier.jsOrZero x) (SortModifier.jsOrZero y) = true
  · have h2 := jsLt_asymm _ _ h1
    simp [h1, h2]
  · by_cases h2 : jsLt (SortModifier.jsOrZero y) (SortModifier.jsOrZero x) = true <;>
      simp [h1, h2] at h

theorem ascending_pos_neg (x y : Cell) (h : 0 < SortModifier.ascending x y) :
    SortModifier.ascending y x < 0 := by
  unfold SortModifier.ascending at h ⊢
  by_cases h1 : jsLt (SortModifier.jsOrZero x) (SortModifier.jsOrZero y) = true <;>
    by_cases h2 : jsLt (SortModifier.jsOrZero y) (SortModifier.jsOrZero x) = true <;>
    simp [h1, h2] at h ⊢

theorem descending_eq_swap (x y : Cell) :
    SortModifier.descending x y = SortModifier.ascending y x := rfl

theorem compareOf_zero_symm (d : Direction) (x y : Cell)
    (h : SortModifier.compareOf d x y = 0) : SortModifier.compareOf d y x = 0 := by
  cases d
  · exact ascending_zero_symm x y h
  · exact ascending_zero_symm y x h

theorem compareOf_skew (d : Direction) (x y : Cell)
    (h : SortModifier.compareOf d x y < 0) : 0 < SortModifier.compareOf d y x := by
  cases d
  · exact ascending_skew x y h
  · exact ascending_skew y x h

theorem compareOf_pos_neg (d : Direction) (x y : Cell)
    (h : 0 < SortModifier.compareOf d x y) : SortModifier.compareOf d y x < 0 := by
  cases d
  · exact ascending_pos_neg x y h
  · exact ascending_pos_neg y x h

theorem rowRefLe_iff (cmp : Cell → Cell → Int) (ci : Nat) (a b : Nat × List Cell) :
    SortModifier.rowRefLe cmp ci a b = true ↔
      (cmp (a.2.getD ci Cell.undef) (b.2.getD ci Cell.undef) < 0 ∨
        (cmp (a.2.getD ci Cell.undef) (b.2.getD ci Cell.undef) = 0 ∧ a.1 ≤ b.1)) := by
  simp [SortModifier.rowRefLe, Bool.or_eq_true, Bool.and_eq_true, decide_eq_true_eq,
    beq_iff_eq]

/-- The sorted row references (`{index, row}` pairs) computed by
`SortModifier.modify` when `orderByColumn` resolves to column index `ci`. -/
def sortedRows (o : SortOptions) (t : DataTable) (ci : Nat) : List (Nat × List Cell) :=
  insSort (SortModifier.rowRefLe (SortModifier.compareOf o.direction) ci)
    (DataTable.tableRows t).enum

theorem rowRefLe_total (d : Direction) (ci : Nat) (a b : Nat × List Cell) :
    SortModifier.rowRefLe (SortModifier.compareOf d) ci a b = true ∨
      SortModifier.rowRefLe (SortModifier.compareOf d) ci b a = true := by
  rw [rowRefLe_iff, rowRefLe_iff]
  rcases lt_trichotomy
      (SortModifier.compareOf d (a.2.getD ci Cell.undef) (b.2.getD ci Cell.undef)) 0
    with h | h | h
  · exact Or.inl (Or.inl h)
  · rcases Nat.le_total a.1 b.1 with hi | hi
    · exact Or.inl (Or.inr ⟨h, hi⟩)
    · exact Or.inr (Or.inr ⟨compareOf_zero_symm d _ _ h, hi⟩)
  · exact Or.inr (Or.inl (compareOf_pos_neg d _ _ h))

theorem rowRefLe_trans (d : Direction) (ci : Nat) (a b c : Nat × List Cell)
    (htr1 : SortModifier.compareOf d (a.2.getD ci Cell.undef) (b.2.getD ci Cell.undef) ≤ 0 →
      SortModifier.compareOf d (b.2.getD ci Cell.undef) (c.2.getD ci Cell.undef) ≤ 0 →
      SortModifier.compareOf d (a.2.getD ci Cell.undef) (c.2.getD ci Cell.undef) ≤ 0)
    (htr2 : SortModifier.compareOf d (b.2.getD ci Cell.undef) (c.2.getD ci Cell.undef) ≤ 0 →
      SortModifier.compareOf d (c.2.getD ci Cell.undef) (a.2.getD ci Cell.undef) ≤ 0 →
      SortModifier.compareOf d (b.2.getD ci Cell.undef) (a.2.getD ci Cell.undef) ≤ 0)
    (htr3 : SortModifier.compareOf d (c.2.getD ci Cell.undef) (a.2.getD ci Cell.undef) ≤ 0 →
      SortModifier.compareOf d (a.2.getD ci Cell.undef) (b.2.getD ci Cell.undef) ≤ 0 →
      SortModifier.compareOf d (c.2.getD ci Cell.undef) (b.2.getD ci Cell.undef) ≤ 0)
    (h1 : SortModifier.rowRefLe (SortModifier.compareOf d) ci a b = true)
    (h2 : SortModifier.rowRefLe (SortModifier.compareOf d) ci b c = true) :
    SortModifier.rowRefLe (SortModifier.compareOf d) ci a c = true := by
  rw [rowRefLe_iff] at h1 h2 ⊢
  rcases h1 with h1 | ⟨h1z, h1i⟩ <;> rcases h2 with h2 | ⟨h2z, h2i⟩
  · have hle := htr1 (le_of_lt h1) (le_of_lt h2)
    rcases lt_or_eq_of_le hle with hlt | heq
    · exact Or.inl hlt
    · exfalso
      have hwu := compareOf_zero_symm d _ _ heq
      have hwv := htr3 (le_of_eq hwu) (le_of_lt h1)
      exact absurd hwv (not_le.mpr (compareOf_skew d _ _ h2))
  · have hle := htr1 (le_of_lt h1) (le_of_eq h2z)
    rcases lt_or_eq_of_le hle with hlt | heq
    · exact Or.inl hlt
    · exfalso
      have hwu := compareOf_zero_symm d _ _ heq
      have hvu := htr2 (le_of_eq h2z) (le_of_eq hwu)
      exact absurd hvu (not_le.mpr (compareOf_skew d _ _ h1))
  · have hle := htr1 (le_of_eq h1z) (le_of_lt h2)
    rcases lt_or_eq_of_le hle with hlt | heq
    · exact Or.inl hlt
    · exfalso
      have hwu := compareOf_zero_symm d _ _ heq
      have hwv := htr3 (le_of_eq hwu) (le_of_eq h1z)
      exact absurd hwv (not_le.mpr (compareOf_skew d _ _ h2))
  · have hle := htr1 (le_of_eq h1z) (le_of_eq h2z)
    rcases lt_or_eq_of_le hle with hlt | heq
    · exact Or.inl hlt
    · exact Or.inr ⟨heq, le_trans h1i h2i⟩

theorem mem_tableRows_enum (t : DataTable) (n : Nat)
    (hn : DataTable.getRowCount t = n) (a : Nat × List Cell)
    (h : a ∈ (DataTable.tableRows t).enum) :
    a.1 < n ∧ a.2 = DataTable.getRow t a.1 := by
  rw [List.mem_enum_iff_getElem?] at h
  rcases List.getElem?_eq_some_iff.mp h with ⟨hlt, hget⟩
  have h1 : a.1 < n := by
    rw [← hn, ← tableRows_length]
    exact hlt
  have hTR : (DataTable.tableRows t)[a.1] = DataTable.getRow t a.1 := by
    simp [DataTable.tableRows]
  exact ⟨h1, by rw [← hget, hTR]⟩

/-- C5: when `orderByColumn` resolves to column index `ci`, the sorted
row references are a permutation of the original indexed rows, in an
order that is sorted by the configured comparator and stable (comparator
ties keep the smaller original index first); `undefined` cells compare
exactly like the neutral value `0`; with `orderInColumn` falsy (unset, or
the empty string: `if (orderInColumn)` is a JS truthiness test) the
table's rows become exactly the sorted rows; with `orderInColumn` set to
a non-empty name `c` every other column is untouched (the row order is
preserved) and column `c` holds, at each row's original index, that
row's 0-based post-sort rank.  Stated for regular tables with at least
one row, under
the comparator-consistency hypothesis `hcons` (the `<=`-comparison
induced by the comparator is transitive on the order-by cells), without
which `Array.prototype.sort`'s result is implementation-defined. -/
theorem sort_spec_law (o : SortOptions) (t : DataTable) (n ci : Nat)
    (hreg : DataTable.regular t n) (hn : DataTable.getRowCount t = n)
    (hfind : (DataTable.getColumnNames t).findIdx? (fun nm => nm == o.orderByColumn) =
      some ci)
    (hpos : 0 < n)
    (hcons : ∀ a ∈ (DataTable.tableRows t).enum, ∀ b ∈ (DataTable.tableRows t).enum,
      ∀ c ∈ (DataTable.tableRows t).enum,
      SortModifier.compareOf o.direction (a.2.getD ci Cell.undef) (b.2.getD ci Cell.undef) ≤ 0 →
      SortModifier.compareOf o.direction (b.2.getD ci Cell.undef) (c.2.getD ci Cell.undef) ≤ 0 →
      SortModifier.compareOf o.direction (a.2.getD ci Cell.undef) (c.2.getD ci Cell.undef) ≤ 0) :
    (∀ (d : Direction) (y : Cell),
      SortModifier.compareOf d Cell.undef y = SortModifier.compareOf d (Cell.num 0) y ∧
      SortModifier.compareOf d y Cell.undef = SortModifier.compareOf d y (Cell.num 0)) ∧
    List.Perm (sortedRows o t ci) (DataTable.tableRows t).enum ∧
    (∀ a ∈ sortedRows o t ci, a.1 < n ∧ a.2 = DataTable.getRow t a.1) ∧
    (sortedRows o t ci).Pairwise (fun a b =>
      SortModifier.compareOf o.direction (a.2.getD ci Cell.undef) (b.2.getD ci Cell.undef) < 0 ∨
      (SortModifier.compareOf o.direction (a.2.getD ci Cell.undef) (b.2.getD ci Cell.undef) = 0 ∧
        a.1 < b.1)) ∧
    (o.orderInColumn = none ∨ o.orderInColumn = some "" →
      DataTable.tableRows (SortModifier.modify o t) = (sortedRows o t ci).map Prod.snd) ∧
    (∀ c, o.orderInColumn = some c → c ≠ "" →
      (∀ name, name ≠ c →
        DataTable.getColumn (SortModifier.modify o t) name = DataTable.getColumn t name) ∧
      DataTable.getColumnNames (SortModifier.modify o t) =
        (if DataTable.hasColumn t c then DataTable.getColumnNames t
          else DataTable.getColumnNames t ++ [c]) ∧
      (∃ col, DataTable.getColumn (SortModifier.modify o t) c = some col ∧
        col.length = n ∧
        ∀ p ∈ (sortedRows o t ci).enum,
          col.getD p.2.1 Cell.undef = Cell.num (Int.ofNat p.1))) := by
  have hperm : List.Perm (sortedRows o t ci) (DataTable.tableRows t).enum :=
    insSort_perm _ _
  have hmem : ∀ a ∈ sortedRows o t ci, a.1 < n ∧ a.2 = DataTable.getRow t a.1 := by
    intro a ha
    exact mem_tableRows_enum t n hn a (hperm.mem_iff.mp ha)
  have htne : t ≠ [] := by
    intro h
    subst h
    simp [DataTable.getColumnNames] at hfind
  have hrows_len : (DataTable.tableRows t).length = n := by rw [tableRows_length, hn]
  have hpair : (sortedRows o t ci).Pairwise
      (fun a b => SortModifier.rowRefLe (SortModifier.compareOf o.direction) ci a b = true) := by
    apply pairwise_insSort
    · intro a _ b _
      exact rowRefLe_total o.direction ci a b
    · intro a ha b hb c hc
      exact rowRefLe_trans o.direction ci a b c
        (hcons a ha b hb c hc) (hcons b hb c hc a ha) (hcons c hc a ha b hb)
  have hfstnodup : ((sortedRows o t ci).map Prod.fst).Nodup := by
    rw [(hperm.map Prod.fst).nodup_iff, List.enum_map_fst]
    exact List.nodup_range _
  have hfstne : (sortedRows o t ci).Pairwise (fun a b => a.1 ≠ b.1) :=
    List.pairwise_map.mp hfstnodup
  have hpair2 : (sortedRows o t ci).Pairwise (fun a b =>
      SortModifier.compareOf o.direction (a.2.getD ci Cell.undef) (b.2.getD ci Cell.undef) < 0 ∨
      (SortModifier.compareOf o.direction (a.2.getD ci Cell.undef) (b.2.getD ci Cell.undef) = 0 ∧
        a.1 < b.1)) := by
    refine (hpair.and hfstne).imp ?_
    intro a b hab
    rcases (rowRefLe_iff _ _ _ _).mp hab.1 with hlt | ⟨hz, hle⟩
    · exact Or.inl hlt
    · exact Or.inr ⟨hz, lt_of_le_of_ne hle hab.2⟩
  refine ⟨fun d y => by cases d <;> exact ⟨rfl, rfl⟩, hperm, hmem, hpair2, ?_, ?_⟩
  · intro ho
    have hgoal : DataTable.tableRows (DataTable.replaceRows t
        ((sortedRows o t ci).map Prod.snd)) = (sortedRows o t ci).map Prod.snd := by
      refine tableRows_replaceRows t _ ?_ htne
      intro r hr
      rcases List.mem_map.mp hr with ⟨a, ha, rfl⟩
      rw [(hmem a ha).2]
      exact getRow_length t a.1
    rcases ho with ho | ho
    · simp only [SortModifier.modify, hfind, ho]
      exact hgoal
    · simp only [SortModifier.modify, hfind, ho]
      rw [if_pos trivial]
      exact hgoal
  · intro c ho hc
    simp only [SortModifier.modify, hfind, ho]
    rw [if_neg hc]
    have hconv : ((sortedRows o t ci).enum.foldl
          (fun acc p => DataTable.setCell acc p.2.1 c (Cell.num p.1)) t) =
        rankFold t c ((sortedRows o t ci).enum.map (fun p => (p.1, p.2.1))) := by
      unfold rankFold
      rw [List.foldl_map]
    have hSlen : (sortedRows o t ci).length = n := by
      rw [hperm.length_eq, List.enum_length, hrows_len]
    have hpsne : (sortedRows o t ci).enum.map
        (fun p : Nat × (Nat × List Cell) => (p.1, p.2.1)) ≠ [] := by
      intro h
      have hl := congrArg List.length h
      simp [hSlen] at hl
      omega
    have hps_snd : ((sortedRows o t ci).enum.map
          (fun p : Nat × (Nat × List Cell) => (p.1, p.2.1))).map Prod.snd =
        (sortedRows o t ci).map Prod.fst := by
      rw [List.map_map]
      have hcomp : (Prod.snd ∘ fun p : Nat × (Nat × List Cell) => (p.1, p.2.1)) =
          (Prod.fst ∘ Prod.snd) := rfl
      rw [hcomp, ← List.map_map, List.enum_map_snd]
    have hpsnodup : (((sortedRows o t ci).enum.map
        (fun p : Nat × (Nat × List Cell) => (p.1, p.2.1))).map Prod.snd).Nodup := by
      rw [hps_snd]
      exact hfstnodup
    rw [show (insSort (SortModifier.rowRefLe (SortModifier.compareOf o.direction) ci)
        (DataTable.tableRows t).enum) = sortedRows o t ci from rfl]
    rw [hconv]
    refine ⟨?_, ?_, ?_⟩
    · intro name hname
      exact getColumn_rankFold_ne _ t c name hname
    · exact getColumnNames_rankFold _ t c hpsne
    · have hcol := getColumn_rankFold_self
        ((sortedRows o t ci).enum.map (fun p : Nat × (Nat × List Cell) => (p.1, p.2.1)))
        t c hpsne
      refine ⟨_, hcol, ?_, ?_⟩
      · rw [foldl_setPad_length]
        have hfold : ((sortedRows o t ci).enum.map
              (fun p : Nat × (Nat × List Cell) => (p.1, p.2.1))).foldl
              (fun m p => max m (p.2 + 1)) ((DataTable.getColumn t c).getD []).length =
            (((sortedRows o t ci).enum.map
              (fun p : Nat × (Nat × List Cell) => (p.1, p.2.1))).map Prod.snd).foldl
              (fun m i => max m (i + 1)) ((DataTable.getColumn t c).getD []).length :=
          (List.foldl_map Prod.snd (fun m i => max m (i + 1)) _ _).symm
        rw [hfold, hps_snd]
        have hpermfst : List.Perm ((sortedRows o t ci).map Prod.fst) (List.range n) := by
          have h1 := hperm.map Prod.fst
          rw [List.enum_map_fst, hrows_len] at h1
          exact h1
        rw [@List.Perm.foldl_eq _ _ _ _ _ ⟨fun x y z => by omega⟩ hpermfst
          ((DataTable.getColumn t c).getD []).length]
        rw [foldl_max_range]
        have hbase : ((DataTable.getColumn t c).getD []).length = n ∨
            (DataTable.getColumn t c).getD [] = [] := by
          rcases hgc : DataTable.getColumn t c with _ | col
          · exact Or.inr rfl
          · exact Or.inl (hreg (c, col) (getColumn_mem t c col hgc))
        rcases hbase with hb | hb
        · omega
        · rw [hb]
          simp [hpos]
      · intro p hp
        apply foldl_setPad_getD_mem _ _ p.1 p.2.1 hpsnodup
        exact List.mem_map_of_mem _ hp

/-- Witness for C5: ascending sort of the column `[3,1,2]` physically
reorders rows to values `[1,2,3]`, original indices `[1,2,0]`. -/
theorem sort_spec_law_witness :
    DataTable.tableRows (SortModifier.modify
        { direction := Direction.asc, orderByColumn := "y" }
        [("y", [Cell.num 3, Cell.num 1, Cell.num 2])]) =
      [[Cell.num 1], [Cell.num 2], [Cell.num 3]] ∧
    (sortedRows { direction := Direction.asc, orderByColumn := "y" }
        [("y", [Cell.num 3, Cell.num 1, Cell.num 2])] 0).map Prod.fst = [1, 2, 0] := by
  have hreg : DataTable.regular [("y", [Cell.num 3, Cell.num 1, Cell.num 2])] 3 := by
    intro c hc
    rcases List.mem_singleton.mp hc with rfl
    rfl
  have h := sort_spec_law { direction := Direction.asc, orderByColumn := "y" }
    [("y", [Cell.num 3, Cell.num 1, Cell.num 2])] 3 0 hreg rfl (by decide) (by decide)
    (by decide)
  constructor
  · rw [h.2.2.2.2.1 (Or.inl rfl)]
    decide
  · decide
